import Mathlib

set_option maxHeartbeats 1000000

/-!
Shallow embedding of the core of a document-RAG system:
strategy analyzer (`src/analyzer.py`), chunk segmenter (`src/chunker.py`),
co-occurrence graph builder (`src/graphrag/graph_builder.py`),
RAPTOR tree builder (`src/raptor/raptor.py`) and the retrieval engine
(`src/retrieval/retrieval_engine.py`).

Python strings are modelled as Lean `String`/`List Char`; Python `float`
arithmetic on reciprocal-rank scores, edge weights and distances is
modelled exactly over `ℚ`; Python dicts (insertion-ordered) are modelled
as association lists that update in place and append fresh keys at the
end.  External collaborators (vector index, SQL store, entity extractor,
k-means) are parameters, mirroring the duck-typed attributes of the
Python classes.
-/

namespace RagSpec

/-! ## Python-style string primitives

`pyStrip` models `str.strip()`, `pyJoin` models `sep.join(parts)`,
`pyIn` models `needle in haystack`, `pyDedupStr` models
`list(dict.fromkeys(xs))`.  They are written over `List Char` so that
proofs do not depend on the internals of `String` library functions. -/

def trimChars (cs : List Char) : List Char :=
  ((cs.dropWhile Char.isWhitespace).reverse.dropWhile Char.isWhitespace).reverse

def pyStrip (s : String) : String :=
  String.mk (trimChars s.data)

def joinSep (sep : List Char) : List (List Char) → List Char
  | [] => []
  | [p] => p
  | p :: q :: rest => p ++ sep ++ joinSep sep (q :: rest)

def pyJoin (sep : String) (parts : List String) : String :=
  String.mk (joinSep sep.data (parts.map String.data))

def pyIn (needle hay : String) : Bool :=
  decide (needle.data <:+: hay.data)

/-- Python `s.lower()` (per-character lowercasing). -/
def pyLower (s : String) : String :=
  String.mk (s.data.map Char.toLower)

/-- Python `text.split("\n\n")`: non-overlapping leftmost cuts at each
blank line; `acc` holds the current segment reversed. -/
def splitOnBlank : List Char → List Char → List (List Char)
  | [], acc => [acc.reverse]
  | '\n' :: '\n' :: rest, acc => acc.reverse :: splitOnBlank rest []
  | c :: rest, acc => splitOnBlank rest (c :: acc)

def pySplitBlank (s : String) : List String :=
  (splitOnBlank s.data []).map String.mk

def pyDedupStr (xs : List String) : List String :=
  xs.foldl (fun acc k => if k ∈ acc then acc else acc ++ [k]) []

/-- `allWS cs` models Python `not s.strip()`: the string is empty or
entirely whitespace. -/
def allWS (cs : List Char) : Bool :=
  cs.all Char.isWhitespace

theorem trimChars_eq_nil_iff (cs : List Char) :
    trimChars cs = [] ↔ allWS cs = true := by
  unfold trimChars allWS
  rw [List.reverse_eq_nil_iff, List.dropWhile_eq_nil_iff, List.all_eq_true]
  constructor
  · intro h x hx
    have hsplit : cs.takeWhile Char.isWhitespace ++ cs.dropWhile Char.isWhitespace = cs :=
      List.takeWhile_append_dropWhile Char.isWhitespace cs
    rw [← hsplit, List.mem_append] at hx
    rcases hx with hx | hx
    · exact List.mem_takeWhile_imp hx
    · exact h x (List.mem_reverse.mpr hx)
  · intro h x hx
    rw [List.mem_reverse] at hx
    exact h x ((List.dropWhile_sublist Char.isWhitespace).subset hx)

theorem pyStrip_eq_empty_iff (s : String) :
    pyStrip s = "" ↔ allWS s.data = true := by
  unfold pyStrip
  constructor
  · intro h
    exact (trimChars_eq_nil_iff s.data).mp (congrArg String.data h)
  · intro h
    exact congrArg String.mk ((trimChars_eq_nil_iff s.data).mpr h)

/-- A non-empty trimmed string is not all-whitespace: the char exposed at
its left edge by the inner `dropWhile` is a witness. -/
theorem trimChars_not_allWS (cs : List Char) (h : trimChars cs ≠ []) :
    allWS (trimChars cs) = false := by
  rcases hcase : (cs.dropWhile Char.isWhitespace).reverse.dropWhile Char.isWhitespace
    with _ | ⟨a, t⟩
  · exact absurd (by simp [trimChars, hcase]) h
  · have hhead := List.head?_dropWhile_not Char.isWhitespace
      (cs.dropWhile Char.isWhitespace).reverse
    rw [hcase] at hhead
    simp only [List.head?_cons] at hhead
    have hmem : a ∈ trimChars cs := by simp [trimChars, hcase]
    unfold allWS
    rw [Bool.eq_false_iff]
    intro hall
    rw [List.all_eq_true] at hall
    have := hall a hmem
    rw [hhead] at this
    exact Bool.false_ne_true this

theorem pyStrip_not_allWS (s : String) (h : pyStrip s ≠ "") :
    allWS (pyStrip s).data = false := by
  have hne : trimChars s.data ≠ [] := by
    intro hnil
    exact h (congrArg String.mk hnil)
  exact trimChars_not_allWS s.data hne

/-- The characters of a joined string include the characters of each part,
so joining at least one non-whitespace part never yields whitespace. -/
theorem joinSep_not_allWS (sep : List Char) :
    ∀ (parts : List (List Char)) (p : List Char), p ∈ parts → allWS p = false →
      allWS (joinSep sep parts) = false
  | [], p, hp, _ => absurd hp (List.not_mem_nil p)
  | [q], p, hp, hws => by
      rw [List.mem_singleton] at hp
      subst hp
      simpa [joinSep] using hws
  | q :: r :: rest, p, hp, hws => by
      rw [List.mem_cons] at hp
      rw [Bool.eq_false_iff]
      intro hall
      unfold allWS at hall
      simp only [joinSep, List.all_append, Bool.and_eq_true] at hall
      rcases hp with hp | hp
      · subst hp
        rw [show allWS p = p.all Char.isWhitespace from rfl, hall.1.1] at hws
        simp at hws
      · have := joinSep_not_allWS sep (r :: rest) p hp hws
        rw [show allWS (joinSep sep (r :: rest))
            = (joinSep sep (r :: rest)).all Char.isWhitespace from rfl, hall.2] at this
        simp at this

/-! ## Data model

`RItem` is a retrieval result dict: an optional `"id"` entry and a
`"text"` entry (the only fields the engine's fusion/dedup logic reads).
`Block` is one entry of a parsed document's `structure` list, and
`ParsedDocument` the output of `parse_document` (the unused `pages`
field is omitted).  `Chunk` carries the fields of a chunker output dict:
`text`, `chunk_id` (equal to the running index) and the
`metadata.strategy` / `metadata.chunk_index` entries. -/

structure RItem where
  id : Option String
  text : String
deriving Repr, DecidableEq

structure Block where
  type : String
  level : Int
  text : String
deriving Repr, DecidableEq

structure ParsedDocument where
  text : String
  docStructure : List Block
deriving Repr, DecidableEq

structure Chunk where
  text : String
  strategy : String
  chunkIndex : Nat
deriving Repr, DecidableEq

/-! ## Strategy analyzer (`src/analyzer.py`) -/

/-- Python `s.isupper()`: at least one cased character and no lower-case
character (ASCII letters are the cased characters modelled here). -/
def pyIsUpper (s : String) : Bool :=
  s.data.any (fun c => c.isAlpha) && s.data.all (fun c => !c.isLower)

/-- `_looks_like_heading` (analyzer.py:58-70). -/
def looksLikeHeading (line : String) : Bool :=
  if line.length > 80 then false
  else
    let stripped := pyStrip line
    if stripped = "" then false
    else
      let words := (stripped.split Char.isWhitespace).filter (fun w => w ≠ "")
      if words.length ≤ 6 && (stripped.data.headD ' ').isDigit then true
      else if pyIsUpper stripped && stripped.length < 50 then true
      else false

/-- The fallback block list for documents without structure:
`[b.strip() for b in text.split("\n\n") if b.strip()]`. -/
def fallbackBlocks (text : String) : List String :=
  ((pySplitBlank text).map pyStrip).filter (fun b => b ≠ "")

/-- `heading_count` and `para_lengths` as computed by `analyze_document`
(analyzer.py:25-35): from explicit structure when present, otherwise from
the blank-line-split fallback. -/
def analyzerCounts (parsed : ParsedDocument) : Nat × List Nat :=
  if parsed.docStructure ≠ [] then
    ((parsed.docStructure.filter (fun b => b.type = "heading")).length,
     (parsed.docStructure.filter (fun b => b.type = "paragraph")).map
       (fun b => b.text.length))
  else
    let blocks := fallbackBlocks parsed.text
    (blocks.countP (fun b => looksLikeHeading b), blocks.map String.length)

def headingCount (parsed : ParsedDocument) : Nat := (analyzerCounts parsed).1

def paraLengths (parsed : ParsedDocument) : List Nat := (analyzerCounts parsed).2

def paraCount (parsed : ParsedDocument) : Nat := (paraLengths parsed).length

/-- `avg_para_len` (analyzer.py:39), exact rational arithmetic. -/
def avgParaLen (parsed : ParsedDocument) : ℚ :=
  if paraCount parsed = 0 then 0
  else ((paraLengths parsed).sum : ℚ) / (paraCount parsed : ℚ)

/-- `variance` (analyzer.py:40-44), exact rational arithmetic. -/
def lenVariance (parsed : ParsedDocument) : ℚ :=
  if paraCount parsed = 0 then 0
  else ((paraLengths parsed).map (fun x => ((x : ℚ) - avgParaLen parsed) ^ 2)).sum
    / (paraCount parsed : ℚ)

/-- `analyze_document` (analyzer.py:8-55).  The float comparison
`std_dev > avg_para_len * 0.5` (with `std_dev = variance ** 0.5`) is
modelled by the equivalent squared comparison
`variance > (avg_para_len / 2) ^ 2`; both sides of the original
comparison are non-negative, so the two are equivalent (proved in the
claim C2 theorem against the `Real.sqrt` form). -/
def analyze_document (parsed : ParsedDocument) : String :=
  if headingCount parsed ≥ 2 then "dynamic"
  else if parsed.text.length > 5000 then "dynamic"
  else if 0 < paraCount parsed ∧ (avgParaLen parsed / 2) ^ 2 < lenVariance parsed then
    "dynamic"
  else "fixed"

/-! ## Chunk segmenter (`src/chunker.py`) -/

/-- Python slice-index normalization for `s[a:b]`: negative indices count
from the end, then both are clamped to `[0, len(s)]`. -/
def pySliceIdx (n : Nat) (i : Int) : Nat :=
  if i < 0 then ((n : Int) + i).toNat else min i.toNat n

/-- Python `s[a:b]` on a character list. -/
def pySlice (cs : List Char) (a b : Int) : List Char :=
  (cs.take (pySliceIdx cs.length b)).drop (pySliceIdx cs.length a)

/-- The advance rule of `_chunk_fixed`: `start = end - overlap` with
`end = start + chunk_size` (chunker.py:44,48,61).  Over `Int`, as in
Python, where `start` can go negative when `overlap > chunk_size`. -/
def nextStart (S O : Nat) (start : Int) : Int :=
  (start + (S : Int)) - (O : Int)

/-- The `while start < len(text)` loop of `_chunk_fixed`
(chunker.py:43-61), with explicit fuel: `none` means the fuel ran out
with the loop still running.  Claim C9 shows fuel `len(text) + 1`
suffices exactly when `overlap < chunk_size`. -/
def chunkFixedAux (cs : List Char) (S O : Nat) : Nat → Int → Nat → Option (List Chunk)
  | 0, start, _ => if start < (cs.length : Int) then none else some []
  | fuel + 1, start, idx =>
    if start < (cs.length : Int) then
      if allWS (pySlice cs start (start + (S : Int))) then
        chunkFixedAux cs S O fuel (nextStart S O start) idx
      else
        match chunkFixedAux cs S O fuel (nextStart S O start) (idx + 1) with
        | none => none
        | some rest =>
            some ({ text := String.mk (pySlice cs start (start + (S : Int))),
                    strategy := "fixed", chunkIndex := idx } :: rest)
    else some []

/-- `_chunk_fixed` (chunker.py:31-63), run with sufficient fuel. -/
def chunk_fixed (parsed : ParsedDocument) (chunkSize overlap : Nat) : List Chunk :=
  (chunkFixedAux parsed.text.data chunkSize overlap
    (parsed.text.data.length + 1) 0 0).getD []

/-- `_make_chunk` (chunker.py:123-137): parts joined by a blank line. -/
def makeChunk (parts : List String) (idx : Nat) : Chunk :=
  { text := pyJoin "\n\n" parts, strategy := "dynamic", chunkIndex := idx }

/-- The block-consuming loop of `_chunk_from_structure`
(chunker.py:92-118), carrying `current_chunk`, `current_size` and
`chunk_idx`. -/
def chunkStructGo (targetSize : Nat) : List Block → List String → Nat → Nat → List Chunk
  | [], current, _, idx => if current = [] then [] else [makeChunk current idx]
  | b :: rest, current, size, idx =>
    if b.text = "" then chunkStructGo targetSize rest current size idx
    else if b.type = "heading" ∧ current ≠ [] ∧ targetSize < size + (b.text.length + 2) then
      makeChunk current idx ::
        chunkStructGo targetSize rest [b.text] (b.text.length + 2) (idx + 1)
    else if targetSize < size + (b.text.length + 2) ∧ current ≠ [] then
      makeChunk current idx ::
        chunkStructGo targetSize rest [b.text] (b.text.length + 2) (idx + 1)
    else chunkStructGo targetSize rest (current ++ [b.text]) (size + (b.text.length + 2)) idx

/-- `_chunk_from_structure` (chunker.py:81-120). -/
def chunk_from_structure (st : List Block) (targetSize : Nat) : List Chunk :=
  chunkStructGo targetSize st [] 0 0

/-- `_chunk_dynamic` (chunker.py:66-78). -/
def chunk_dynamic (parsed : ParsedDocument) (targetSize : Nat) : List Chunk :=
  if parsed.docStructure ≠ [] then chunk_from_structure parsed.docStructure targetSize
  else chunk_from_structure
    ((fallbackBlocks parsed.text).map (fun b => { type := "paragraph", level := 0, text := b }))
    targetSize

/-- `chunk_document` (chunker.py:8-28): any strategy other than
`"fixed"` takes the dynamic path. -/
def chunk_document (parsed : ParsedDocument) (strategy : String)
    (chunkSize overlap : Nat) : List Chunk :=
  if strategy = "fixed" then chunk_fixed parsed chunkSize overlap
  else chunk_dynamic parsed chunkSize

/-! Closed forms for the fixed strategy, used to state claims C4/C9. -/

/-- The start offsets `0, step, 2*step, ...` visited by the fixed-window
scan (`step = chunk_size - chunk_overlap`), up to the text length. -/
def windowStarts (n step s : Nat) : List Nat :=
  if h : s < n ∧ 0 < step then s :: windowStarts n step (s + step) else []
termination_by n - s
decreasing_by omega

/-- The window of `chunk_size` characters starting at `s` (a `Nat`
restatement of `text[s : s + S]` for in-range `s`). -/
def windowSlice (cs : List Char) (S s : Nat) : List Char :=
  (cs.take (s + S)).drop s

/-- Closed form of `_chunk_fixed`: all windows in start order, the
all-whitespace ones dropped, the rest numbered from 0. -/
def fixedChunksSpec (cs : List Char) (S O : Nat) : List Chunk :=
  ((((windowStarts cs.length (S - O) 0).map (windowSlice cs S)).filter
      (fun ct => !allWS ct)).enum).map
    (fun p => { text := String.mk p.2, strategy := "fixed", chunkIndex := p.1 })

/-- Concatenation of window contents "accounting for the overlap": the
first window in full, every later one with its first `O` characters
(shared with its predecessor) removed. -/
def overlapConcat (O : Nat) : List (List Char) → List Char
  | [] => []
  | c :: rest => c ++ (rest.map (fun d => d.drop O)).flatten

/-- The start offsets of the windows `_chunk_fixed` actually emits: the
scan's starts with the all-whitespace windows removed. -/
def keptStarts (cs : List Char) (S O : Nat) : List Nat :=
  (windowStarts cs.length (S - O) 0).filter (fun s => !allWS (windowSlice cs S s))

/-- Concatenation of the kept windows "accounting for the overlap": of
every window but the last, the characters before the next kept window's
start (the part shared with the successor removed — `O` characters when
the successor is the very next scan position, more of the window when
whitespace-only windows were skipped in between); the last window in
full. -/
def mergeKept (cs : List Char) (S : Nat) : List Nat → List Char
  | [] => []
  | [s] => windowSlice cs S s
  | s1 :: s2 :: rest => (windowSlice cs S s1).take (s2 - s1) ++ mergeKept cs S (s2 :: rest)

/-! ## Co-occurrence graph builder (`src/graphrag/graph_builder.py`)

The per-chunk entity extractor (`detect_language` composed with
`extract_entities`, both external collaborators per the spec's §6) is a
parameter `extract : String → List String`. -/

/-- A chunk as consumed by the graph builder: its text plus the
`metadata.chunk_index` entry (`none` when the metadata lacks one, in
which case the enumeration index is used, graph_builder.py:21). -/
structure GChunk where
  text : String
  chunkIndex : Option Nat
deriving Repr, DecidableEq

/-- `tuple(sorted([a, b]))` (graph_builder.py:33). -/
def sortPair (a b : String) : String × String :=
  if a ≤ b then (a, b) else (b, a)

/-- `edges[key] = edges.get(key, 0) + 1.0` on an insertion-ordered dict. -/
def bumpEdge : List ((String × String) × ℚ) → (String × String) → List ((String × String) × ℚ)
  | [], k => [(k, 1)]
  | (k', w) :: rest, k =>
    if k' = k then (k', w + 1) :: rest else (k', w) :: bumpEdge rest k

/-- The nested pair loop of graph_builder.py:30-34:
`for i_a, a in enumerate(entities): for b in entities[i_a+1:]: ...`. -/
def addChunkPairs : List String → List ((String × String) × ℚ) → List ((String × String) × ℚ)
  | [], m => m
  | a :: rest, m =>
    addChunkPairs rest
      (rest.foldl (fun acc b => if a ≠ b then bumpEdge acc (sortPair a b) else acc) m)

/-- `entity_chunks.setdefault(e, []).append(chunk_id_str)`. -/
def appendAt : List (String × List String) → String → String → List (String × List String)
  | [], e, cid => [(e, [cid])]
  | (e', cids) :: rest, e, cid =>
    if e' = e then (e', cids ++ [cid]) :: rest else (e', cids) :: appendAt rest e cid

/-- `chunk_id_str = f"{doc_id}_{chunk_idx}" if doc_id else str(chunk_idx)`. -/
def chunkIdStr (docId : Option String) (idx : Nat) : String :=
  match docId with
  | some d => if d = "" then toString idx else d ++ "_" ++ toString idx
  | none => toString idx

/-- The entities of a chunk after the `len(e) > 1` filter
(graph_builder.py:26-27). -/
def chunkEntities (extract : String → List String) (c : GChunk) : List String :=
  (extract c.text).filter (fun e => 1 < e.length)

/-- One iteration of the chunk loop of `build_cooccurrence_edges`
(graph_builder.py:19-34). -/
def graphStep (extract : String → List String) (docId : Option String)
    (acc : List ((String × String) × ℚ) × List (String × List String))
    (ichunk : Nat × GChunk) :
    List ((String × String) × ℚ) × List (String × List String) :=
  if ichunk.2.text = "" then acc
  else
    (addChunkPairs (chunkEntities extract ichunk.2) acc.1,
     (chunkEntities extract ichunk.2).foldl
       (fun ec e =>
         appendAt ec e (chunkIdStr docId (ichunk.2.chunkIndex.getD ichunk.1)))
       acc.2)

/-- `build_cooccurrence_edges` (graph_builder.py:8-36). -/
def build_cooccurrence_edges (extract : String → List String)
    (chunks : List GChunk) (docId : Option String) :
    List (String × String × ℚ) × List (String × List String) :=
  ((chunks.enum.foldl (graphStep extract docId) ([], [])).1.map
      (fun e => (e.1.1, e.1.2, e.2)),
   (chunks.enum.foldl (graphStep extract docId) ([], [])).2)

/-- The number of chunks in which two entities co-occur (skipping
empty-text chunks, which the builder skips before extraction). -/
def coChunkCount (extract : String → List String) (chunks : List GChunk)
    (a b : String) : Nat :=
  chunks.countP (fun c =>
    c.text ≠ "" ∧ a ∈ chunkEntities extract c ∧ b ∈ chunkEntities extract c)

/-- The weight stored for the unordered pair `{a, b}` (0 when absent). -/
def edgeWeight (edges : List (String × String × ℚ)) (a b : String) : ℚ :=
  ((edges.filter (fun e => (e.1, e.2.1) = sortPair a b)).map (fun e => e.2.2)).sum

/-! ## RAPTOR tree builder (`src/raptor/raptor.py`)

`sklearn.cluster.KMeans` is an external collaborator: it is a parameter
returning `(labels, centroids)` for given embeddings and cluster count.
Claim C5's theorem assumes only the shape of its output (one label per
embedding, labels below the cluster count). -/

structure TreeNode where
  text : String
  chunkId : String
  docId : String
  raptorLevel : Nat
  chunkIndex : Option Nat
  represents : Option (List String)
deriving Repr, DecidableEq

/-- Squared Euclidean distance (comparisons of `np.linalg.norm` values
between non-negative reals are equivalent to comparisons of squares). -/
def sqDist (u v : List ℚ) : ℚ :=
  ((u.zip v).map (fun p => (p.1 - p.2) ^ 2)).sum

/-- `np.argmin`: index of the first occurrence of the minimum. -/
def argminIdx (l : List ℚ) : Nat :=
  l.indexOf ((l.min?).getD 0)

/-- `np.where(labels == c)[0]`: indices with label `c`, ascending. -/
def clusterIndices (labels : List Nat) (c : Nat) : List Nat :=
  (labels.enum.filter (fun p => p.2 = c)).map Prod.fst

/-- The level-1 node emitted for cluster `c` (raptor.py:47-66), `none`
for an empty cluster. -/
def raptorLevel1Node (chunks : List GChunk) (embeddings : List (List ℚ))
    (labels : List Nat) (centroids : List (List ℚ)) (docId : String) (c : Nat) :
    Option TreeNode :=
  let indices := clusterIndices labels c
  if indices = [] then none
  else
    let centroid := centroids.getD c []
    let dists := indices.map (fun i => sqDist (embeddings.getD i []) centroid)
    let nearestIdx := indices.getD (argminIdx dists) 0
    some
      { text := (chunks.getD nearestIdx { text := "", chunkIndex := none }).text,
        chunkId := docId ++ "_L1_" ++ toString c,
        docId := docId,
        raptorLevel := 1,
        chunkIndex := none,
        represents := some (indices.map (fun i => docId ++ "_" ++ toString i)) }

/-- The level-0 leaf nodes (raptor.py:29-38), one per chunk/embedding
pair in order. -/
def raptorLevel0Nodes (chunks : List GChunk) (embeddings : List (List ℚ))
    (docId : String) : List TreeNode :=
  (chunks.zip embeddings).enum.map (fun p =>
    { text := p.2.1.text,
      chunkId := docId ++ "_" ++ toString p.1,
      docId := docId,
      raptorLevel := 0,
      chunkIndex := some p.1,
      represents := none })

/-- `build_raptor_tree` (raptor.py:8-68), parameterized by the k-means
collaborator `km : embeddings → n_clusters → (labels, centroids)`. -/
def build_raptor_tree (km : List (List ℚ) → Nat → List Nat × List (List ℚ))
    (chunks : List GChunk) (embeddings : List (List ℚ)) (docId : String)
    (nClusters : Nat) : List TreeNode :=
  if chunks = [] ∨ embeddings = [] then []
  else
    let n := chunks.length
    let nodes0 := raptorLevel0Nodes chunks embeddings docId
    if n ≤ nClusters then nodes0
    else
      let lc := km embeddings (min nClusters n)
      nodes0 ++ (List.range (min nClusters n)).filterMap
        (raptorLevel1Node chunks embeddings lc.1 lc.2 docId)

/-! ## Retrieval engine (`src/retrieval/retrieval_engine.py`) -/

/-- The RRF key of an item: `item.get("id") or item.get("text", "")[:100]`
(retrieval_engine.py:18-19).  A missing or empty (falsy) id falls back to
the first 100 characters of the text. -/
def rrfKey (it : RItem) : String :=
  match it.id with
  | some i => if i = "" then it.text.take 100 else i
  | none => it.text.take 100

/-- `scores[key] = scores.get(key, 0) + v` on an insertion-ordered dict. -/
def bumpScore : List (String × ℚ) → String → ℚ → List (String × ℚ)
  | [], k, v => [(k, v)]
  | (k', w) :: rest, k, v =>
    if k' = k then (k', w + v) :: rest else (k', w) :: bumpScore rest k v

/-- `if key not in seen: seen[key] = item`. -/
def addSeen : List (String × RItem) → String → RItem → List (String × RItem)
  | [], k, it => [(k, it)]
  | (k', it') :: rest, k, it =>
    if k' = k then (k', it') :: rest else (k', it') :: addSeen rest k it

/-- Association-list lookup, the Python `d[k]` / `k in d` primitive on
the insertion-ordered dict model. -/
def lookupKey {β : Type} : List (String × β) → String → Option β
  | [], _ => none
  | (k, v) :: rest, a => if k = a then some v else lookupKey rest a

structure RRFState where
  scores : List (String × ℚ)
  seen : List (String × RItem)
deriving Repr

/-- One iteration of the inner loop of `_reciprocal_rank_fusion`
(retrieval_engine.py:17-22), at 1-based rank `p.1`. -/
def rrfStep (k : Nat) (st : RRFState) (p : Nat × RItem) : RRFState :=
  { scores := bumpScore st.scores (rrfKey p.2) (1 / ((k : ℚ) + (p.1 : ℚ))),
    seen := addSeen st.seen (rrfKey p.2) p.2 }

/-- Folding one ranked list (with `enumerate(lst, 1)`) into the state. -/
def rrfScanList (k : Nat) (st : RRFState) (lst : List RItem) : RRFState :=
  (lst.enumFrom 1).foldl (rrfStep k) st

def rrfStateOf (k : Nat) (lists : List (List RItem)) : RRFState :=
  lists.foldl (rrfScanList k) { scores := [], seen := [] }

/-- The accumulated score of a key (0 when never seen). -/
def scoreOf (st : RRFState) (key : String) : ℚ :=
  (lookupKey st.scores key).getD 0

/-- The keys of the score dict, stably sorted by descending score:
Python's stable `sorted(scores.keys(), key=lambda x: -scores[x])`
(retrieval_engine.py:24) is `mergeSort` under "score at least as
large". -/
def rrfSortedKeys (lists : List (List RItem)) (k : Nat) : List String :=
  ((rrfStateOf k lists).scores.map Prod.fst).mergeSort
    (fun a b => decide (scoreOf (rrfStateOf k lists) b ≤ scoreOf (rrfStateOf k lists) a))

/-- `_reciprocal_rank_fusion` (retrieval_engine.py:8-25): the first-seen
payload of each key, in stably score-sorted key order. -/
def reciprocal_rank_fusion (lists : List (List RItem)) (k : Nat) : List RItem :=
  (rrfSortedKeys lists k).filterMap
    (fun key => lookupKey (rrfStateOf k lists).seen key)

/-- The spec-side score: the contribution of one ranked list to a key,
`Σ 1/(k + rank)` over the occurrences of the key, ranks counted from
`r`. -/
def rrfContrib (kk r : Nat) (key : String) (l : List RItem) : ℚ :=
  (((l.enumFrom r).filter (fun p => rrfKey p.2 = key)).map
    (fun p => 1 / ((kk : ℚ) + (p.1 : ℚ)))).sum

/-- The spec-side RRF score of a key: sum of the per-list contributions
with 1-based ranks. -/
def rrfSpecScore (kk : Nat) (lists : List (List RItem)) (key : String) : ℚ :=
  (lists.map (fun l => rrfContrib kk 1 key l)).sum

/-- The dedup key: `r.get("id") or r.get("text", "")[:80]`
(retrieval_engine.py:33). -/
def dedupKey (r : RItem) : String :=
  match r.id with
  | some i => if i = "" then r.text.take 80 else i
  | none => r.text.take 80

def deduplicateAux : List String → List RItem → List RItem
  | _, [] => []
  | seen, r :: rest =>
    if dedupKey r ∈ seen then deduplicateAux seen rest
    else r :: deduplicateAux (dedupKey r :: seen) rest

/-- `_deduplicate_results` (retrieval_engine.py:28-37) with the engine's
always-used default `key="id"`. -/
def deduplicate_results (results : List RItem) : List RItem :=
  deduplicateAux [] results

def relationalWords : List String :=
  ["related", "connection", "between", "relationship", "connect"]

def summaryWords : List String :=
  ["summarize", "overview", "main points", "summary"]

/-- `RetrievalEngine._route_mode` (retrieval_engine.py:47-54); the local
`q = query.lower()` is inlined. -/
def routeMode (query : String) : String :=
  if relationalWords.any (fun w => pyIn w (pyLower query)) then "graph"
  else if summaryWords.any (fun w => pyIn w (pyLower query)) then "raptor"
  else "vector"

/-- `mode = mode or self._route_mode(query)` (retrieval_engine.py:69):
`None` and the falsy empty string both trigger auto-routing. -/
def effectiveMode (mode : Option String) (query : String) : String :=
  match mode with
  | some m => if m = "" then routeMode query else m
  | none => routeMode query

/-- The engine's collaborators (`vector_db`, `sql_db` and the entity
extractor module), duck-typed attributes in the source. -/
structure Collab where
  search : String → Nat → Option String → List RItem
  searchRaptor : String → Nat → Nat → Option String → List RItem
  getByIds : List String → List RItem
  getRelatedEntities : String → Nat → Option String → List (String × ℚ)
  getChunkIdsForEntities : List String → Nat → Option String → List String
  extractEntities : String → String → List String
  detectLanguage : String → String

/-- The graph-expansion candidate set of `_retrieve_graph`
(retrieval_engine.py:94-119): entities from the initial results and the
query, related entities from the edge store, then their member chunks. -/
def graphExpanded (c : Collab) (query : String) (topK : Nat)
    (docId : Option String) : List RItem :=
  let fetchK := max 10 (topK * 2)
  let initial := c.search query fetchK docId
  let allText := pyJoin " " (initial.map (fun r => r.text))
  let entsRes := ((c.extractEntities allText (c.detectLanguage allText)).filter
    (fun e => 2 < e.length)).take 15
  let entsQuery := ((c.extractEntities query (c.detectLanguage query)).filter
    (fun e => 2 < e.length)).take 10
  let entities := (pyDedupStr (entsQuery ++ entsRes)).take 15
  let related := (pyDedupStr ((entities.take 8).flatMap
    (fun e => (c.getRelatedEntities e 4 docId).map Prod.fst))).take 15
  (related.take 5).flatMap (fun ent =>
    let chunkIds := c.getChunkIdsForEntities [ent] 6 docId
    if chunkIds = [] then [] else c.getByIds chunkIds)

/-- `RetrievalEngine._retrieve_graph` (retrieval_engine.py:85-122); the
collaborators are pure, so the repeated `c.search` call denotes the
single `initial` fetch of the source. -/
def retrieveGraph (c : Collab) (query : String) (topK : Nat)
    (docId : Option String) : List RItem :=
  if c.search query (max 10 (topK * 2)) docId = [] then []
  else
    (deduplicate_results (reciprocal_rank_fusion
      [c.search query (max 10 (topK * 2)) docId,
       graphExpanded c query topK docId] 60)).take topK

/-- The non-empty per-level result lists of `_retrieve_raptor`
(retrieval_engine.py:129-135), level 1 first. -/
def raptorLevels (c : Collab) (query : String) (topK : Nat)
    (docId : Option String) : List (List RItem) :=
  ([1, 0].map (fun lvl => c.searchRaptor query (max 8 (topK * 2)) lvl docId)).filter
    (fun r => r ≠ [])

/-- `RetrievalEngine._retrieve_raptor` (retrieval_engine.py:124-139). -/
def retrieveRaptor (c : Collab) (query : String) (topK : Nat)
    (docId : Option String) : List RItem :=
  if raptorLevels c query topK docId = [] then c.search query topK docId
  else
    (deduplicate_results (reciprocal_rank_fusion
      (raptorLevels c query topK docId) 60)).take topK

/-- `RetrievalEngine._retrieve_hybrid` (retrieval_engine.py:141-149). -/
def retrieveHybrid (c : Collab) (query : String) (topK : Nat)
    (docId : Option String) : List RItem :=
  (deduplicate_results (reciprocal_rank_fusion
    [c.search query (max 10 (topK * 2)) docId,
     retrieveGraph c query (max 10 (topK * 2)) docId] 60)).take topK

/-- `RetrievalEngine.retrieve` (retrieval_engine.py:56-83): the final
fall-through line returns a plain vector search for any unrecognized
explicit mode. -/
def retrieve (c : Collab) (query : String) (mode : Option String) (topK : Nat)
    (docId : Option String) : List RItem :=
  if effectiveMode mode query = "vector" then c.search query topK docId
  else if effectiveMode mode query = "graph" then retrieveGraph c query topK docId
  else if effectiveMode mode query = "raptor" then retrieveRaptor c query topK docId
  else if effectiveMode mode query = "hybrid" then retrieveHybrid c query topK docId
  else c.search query topK docId

/-! ## Supporting lemmas: analyzer -/

theorem avgParaLen_nonneg (parsed : ParsedDocument) : 0 ≤ avgParaLen parsed := by
  unfold avgParaLen
  split
  · exact le_refl 0
  · exact div_nonneg (by positivity) (by positivity)

theorem lenVariance_nonneg (parsed : ParsedDocument) : 0 ≤ lenVariance parsed := by
  unfold lenVariance
  split
  · exact le_refl 0
  · refine div_nonneg (List.sum_nonneg ?_) (by positivity)
    intro x hx
    rw [List.mem_map] at hx
    obtain ⟨a, -, rfl⟩ := hx
    positivity

/-- The analyzer's squared comparison agrees with the source's
`std_dev > avg_para_len * 0.5` because both compared values are
non-negative. -/
theorem variance_sqrt_equiv (parsed : ParsedDocument) :
    (avgParaLen parsed / 2) ^ 2 < lenVariance parsed ↔
      (avgParaLen parsed : ℝ) / 2 < Real.sqrt (lenVariance parsed : ℝ) := by
  have hx : (0 : ℝ) ≤ (avgParaLen parsed : ℝ) / 2 :=
    div_nonneg (by exact_mod_cast avgParaLen_nonneg parsed) (by norm_num)
  rw [Real.lt_sqrt hx]
  constructor
  · intro h
    have : (((avgParaLen parsed / 2) ^ 2 : ℚ) : ℝ) < ((lenVariance parsed : ℚ) : ℝ) := by
      exact_mod_cast h
    calc ((avgParaLen parsed : ℝ) / 2) ^ 2
        = (((avgParaLen parsed / 2) ^ 2 : ℚ) : ℝ) := by push_cast; ring
      _ < (lenVariance parsed : ℝ) := this
  · intro h
    have : (((avgParaLen parsed / 2) ^ 2 : ℚ) : ℝ) < ((lenVariance parsed : ℚ) : ℝ) := by
      calc (((avgParaLen parsed / 2) ^ 2 : ℚ) : ℝ)
          = ((avgParaLen parsed : ℝ) / 2) ^ 2 := by push_cast; ring
        _ < (lenVariance parsed : ℝ) := h
    exact_mod_cast this

/-- C2: strategy analysis is a deterministic pure function of the
`ParsedDocument` (it is a Lean function of `parsed` alone, with
`"dynamic"`/`"fixed"` the only outcomes, so it never fails); the result
is `"dynamic"` exactly when, in the source's first-match order,
`heading_count >= 2`, or `len(text) > 5000`, or there is at least one
block and the population standard deviation of the block lengths exceeds
half the mean block length (all three branches return `"dynamic"`, so
first-match order and plain disjunction agree); the empty document
yields `"fixed"`. -/
theorem analyze_document_decision (parsed : ParsedDocument) :
    (analyze_document parsed = "dynamic" ∨ analyze_document parsed = "fixed") ∧
    (analyze_document parsed = "dynamic" ↔
      2 ≤ headingCount parsed ∨ 5000 < parsed.text.length ∨
        (0 < paraCount parsed ∧
          (avgParaLen parsed : ℝ) / 2 < Real.sqrt (lenVariance parsed : ℝ))) ∧
    analyze_document { text := "", docStructure := [] } = "fixed" := by
  refine ⟨?_, ?_, by decide⟩
  · unfold analyze_document
    split_ifs <;> simp
  · unfold analyze_document
    split_ifs with h1 h2 h3
    · simp only [true_iff]
      exact Or.inl h1
    · simp only [true_iff]
      exact Or.inr (Or.inl h2)
    · simp only [true_iff]
      exact Or.inr (Or.inr ⟨h3.1, (variance_sqrt_equiv parsed).mp h3.2⟩)
    · constructor
      · intro h
        exact absurd h (by decide)
      · intro h
        rcases h with h | h | h
        · exact absurd h h1
        · exact absurd h h2
        · exact absurd ⟨h.1, (variance_sqrt_equiv parsed).mpr h.2⟩ h3

/-! ## Supporting lemmas: routing -/

/-- C6: with mode omitted, routing is a case-insensitive substring match
on the query: a relational word yields `"graph"`, else a summary word
yields `"raptor"`, else `"vector"`; an explicitly supplied (non-empty,
hence truthy) mode always overrides routing; the query
"What is the relationship between X and Y" routes to `"graph"`. -/
theorem mode_routing_spec :
    (∀ q : String, routeMode q = "graph" ↔
       relationalWords.any (fun w => pyIn w (pyLower q)) = true) ∧
    (∀ q : String, routeMode q = "raptor" ↔
       (¬ relationalWords.any (fun w => pyIn w (pyLower q)) = true ∧
        summaryWords.any (fun w => pyIn w (pyLower q)) = true)) ∧
    (∀ q : String, routeMode q = "vector" ↔
       (¬ relationalWords.any (fun w => pyIn w (pyLower q)) = true ∧
        ¬ summaryWords.any (fun w => pyIn w (pyLower q)) = true)) ∧
    (∀ (m q : String), m ≠ "" → effectiveMode (some m) q = m) ∧
    (∀ q : String, effectiveMode none q = routeMode q) ∧
    routeMode "What is the relationship between X and Y" = "graph" := by
  refine ⟨?_, ?_, ?_, ?_, fun q => rfl, by decide⟩
  · intro q
    unfold routeMode
    split_ifs with h1 h2
    · exact ⟨fun _ => h1, fun _ => rfl⟩
    · exact ⟨fun hc => absurd hc (by decide), fun hc => absurd hc h1⟩
    · exact ⟨fun hc => absurd hc (by decide), fun hc => absurd hc h1⟩
  · intro q
    unfold routeMode
    split_ifs with h1 h2
    · exact ⟨fun hc => absurd hc (by decide), fun hc => absurd h1 hc.1⟩
    · exact ⟨fun _ => ⟨h1, h2⟩, fun _ => rfl⟩
    · exact ⟨fun hc => absurd hc (by decide), fun hc => absurd hc.2 h2⟩
  · intro q
    unfold routeMode
    split_ifs with h1 h2
    · exact ⟨fun hc => absurd hc (by decide), fun hc => absurd h1 hc.1⟩
    · exact ⟨fun hc => absurd hc (by decide), fun hc => absurd h2 hc.2⟩
    · exact ⟨fun _ => ⟨h1, h2⟩, fun _ => rfl⟩
  · intro m q hm
    unfold effectiveMode
    simp [hm]

/-- C10: an explicit mode string outside the four recognized modes falls
through every branch of `retrieve` to the final plain vector search (the
function is total, so nothing is raised), identical to `mode="vector"`;
and because the source tests `mode` for truthiness (`mode = mode or
self._route_mode(query)`), the empty string as explicit mode triggers
auto-routing exactly as an omitted mode does. -/
theorem retrieve_unknown_and_empty_mode (c : Collab) (q : String) (k : Nat)
    (d : Option String) :
    (∀ m : String, m ∉ ["vector", "graph", "raptor", "hybrid"] → m ≠ "" →
       retrieve c q (some m) k d = c.search q k d ∧
       retrieve c q (some m) k d = retrieve c q (some "vector") k d) ∧
    retrieve c q (some "") k d = retrieve c q none k d := by
  constructor
  · intro m hmem hne
    have heff : effectiveMode (some m) q = m := by
      unfold effectiveMode
      simp [hne]
    simp only [List.mem_cons, List.not_mem_nil, or_false] at hmem
    push_neg at hmem
    obtain ⟨h1, h2, h3, h4⟩ := hmem
    have hval : retrieve c q (some m) k d = c.search q k d := by
      unfold retrieve
      rw [heff]
      simp [h1, h2, h3, h4]
    refine ⟨hval, ?_⟩
    rw [hval]
    have heffv : effectiveMode (some "vector") q = "vector" := rfl
    unfold retrieve
    rw [heffv]
    simp
  · have h0 : effectiveMode (some "") q = effectiveMode none q := rfl
    unfold retrieve
    rw [h0]

/-! ## Supporting lemmas: fixed-chunking termination (claim C9) -/

theorem chunkFixedAux_total (cs : List Char) (S O : Nat) (hSO : O < S) :
    ∀ (fuel : Nat) (start : Int) (idx : Nat),
      ((cs.length : Int) - start).toNat < fuel →
      (chunkFixedAux cs S O fuel start idx).isSome = true := by
  intro fuel
  induction fuel with
  | zero => intro start idx h; omega
  | succ fuel ih =>
    intro start idx h
    rw [chunkFixedAux]
    by_cases hlt : start < (cs.length : Int)
    · have hrec : ((cs.length : Int) - nextStart S O start).toNat < fuel := by
        unfold nextStart
        omega
      rw [if_pos hlt]
      by_cases hws : allWS (pySlice cs start (start + (S : Int))) = true
      · rw [if_pos hws]
        exact ih (nextStart S O start) idx hrec
      · rw [if_neg hws]
        have := ih (nextStart S O start) (idx + 1) hrec
        cases hres : chunkFixedAux cs S O fuel (nextStart S O start) (idx + 1) with
        | none => rw [hres] at this; simp at this
        | some rest => rfl
    · rw [if_neg hlt]; rfl

theorem chunkFixedAux_stuck (cs : List Char) (S O : Nat) (hOS : S ≤ O)
    (hne : cs ≠ []) :
    ∀ (fuel : Nat) (start : Int) (idx : Nat), start ≤ 0 →
      chunkFixedAux cs S O fuel start idx = none := by
  have hlen : 0 < cs.length := List.length_pos.mpr hne
  intro fuel
  induction fuel with
  | zero =>
    intro start idx hstart
    rw [chunkFixedAux]
    have : start < (cs.length : Int) := by omega
    simp [this]
  | succ fuel ih =>
    intro start idx hstart
    rw [chunkFixedAux]
    have hlt : start < (cs.length : Int) := by omega
    have hnext : nextStart S O start ≤ 0 := by
      unfold nextStart
      omega
    simp only [hlt, if_true]
    split_ifs with hws
    · exact ih (nextStart S O start) idx hnext
    · rw [ih (nextStart S O start) (idx + 1) hnext]

/-- C9: with `overlap < chunk_size` the scan's start strictly advances
every iteration (by `chunk_size - overlap`) and the loop terminates
within `len(text) + 1` iterations; the precondition is not
auto-corrected: with `overlap >= chunk_size` the advance is
non-positive, and on any non-empty text the loop never terminates (no
amount of fuel completes it). -/
theorem fixed_chunking_termination :
    (∀ (S O : Nat) (start : Int), nextStart S O start = start + ((S : Int) - (O : Int))) ∧
    (∀ (S O : Nat) (start : Int), O < S → start < nextStart S O start) ∧
    (∀ (cs : List Char) (S O : Nat), O < S →
       ∃ res, chunkFixedAux cs S O (cs.length + 1) 0 0 = some res) ∧
    (∀ (S O : Nat) (start : Int), S ≤ O → nextStart S O start ≤ start) ∧
    (∀ (cs : List Char) (S O : Nat), S ≤ O → cs ≠ [] →
       ∀ (fuel : Nat) (idx : Nat), chunkFixedAux cs S O fuel 0 idx = none) := by
  refine ⟨?_, ?_, ?_, ?_, ?_⟩
  · intro S O start
    unfold nextStart
    omega
  · intro S O start h
    unfold nextStart
    omega
  · intro cs S O h
    have := chunkFixedAux_total cs S O h (cs.length + 1) 0 0 (by omega)
    exact Option.isSome_iff_exists.mp this
  · intro S O start h
    unfold nextStart
    omega
  · intro cs S O hOS hne fuel idx
    exact chunkFixedAux_stuck cs S O hOS hne fuel 0 idx (le_refl 0)

/-! ## Supporting lemmas: fixed segmentation closed form (claim C4) -/

theorem pySlice_of_natCast (cs : List Char) (a b : Nat) :
    pySlice cs (a : Int) (b : Int) = (cs.take b).drop a := by
  unfold pySlice pySliceIdx
  rw [if_neg (by omega), if_neg (by omega)]
  simp only [Int.toNat_natCast]
  have htake : cs.take (min b cs.length) = cs.take b := by
    rcases le_total b cs.length with hb | hb
    · rw [min_eq_left hb]
    · rw [min_eq_right hb, List.take_all_of_le hb, List.take_all_of_le (le_refl _)]
  rw [htake]
  rcases le_total a cs.length with ha | ha
  · rw [min_eq_left ha]
  · rw [min_eq_right ha]
    have hlen : (cs.take b).length ≤ cs.length := by
      rw [List.length_take]
      omega
    rw [List.drop_eq_nil_of_le hlen, List.drop_eq_nil_of_le (le_trans hlen ha)]

/-- The loop-visited chunks from start offset `s` with running index
`idx`: windows in start order, whitespace-only ones skipped, the rest
numbered from `idx`. -/
def emitFrom (cs : List Char) (S O : Nat) (s idx : Nat) : List Chunk :=
  ((((windowStarts cs.length (S - O) s).map (windowSlice cs S)).filter
      (fun ct => !allWS ct)).enumFrom idx).map
    (fun p => { text := String.mk p.2, strategy := "fixed", chunkIndex := p.1 })

theorem nextStart_natCast (S O s : Nat) (hO : O < S) :
    nextStart S O (s : Int) = ((s + (S - O) : Nat) : Int) := by
  unfold nextStart
  omega

theorem chunkFixedAux_eq_emitFrom (cs : List Char) (S O : Nat) (hO : O < S) :
    ∀ (fuel s idx : Nat), cs.length - s < fuel →
      chunkFixedAux cs S O fuel (s : Int) idx = some (emitFrom cs S O s idx) := by
  intro fuel
  induction fuel with
  | zero => intro s idx h; omega
  | succ fuel ih =>
    intro s idx h
    by_cases hs : s < cs.length
    · have hcast : ((s : Int) + (S : Int)) = (((s + S : Nat)) : Int) := by push_cast; ring
      have hslice : pySlice cs (s : Int) ((s : Int) + (S : Int)) = windowSlice cs S s := by
        rw [hcast, pySlice_of_natCast]
        rfl
      have hrec : cs.length - (s + (S - O)) < fuel := by omega
      rw [chunkFixedAux, if_pos (by exact_mod_cast hs), hslice,
        nextStart_natCast S O s hO]
      rw [emitFrom, windowStarts, dif_pos ⟨hs, by omega⟩]
      simp only [List.map_cons, List.filter_cons]
      by_cases hws : allWS (windowSlice cs S s) = true
      · rw [if_pos hws, hws]
        simp only [Bool.not_true, if_neg (by simp : ¬ (false = true))]
        rw [ih (s + (S - O)) idx hrec]
        rfl
      · rw [if_neg hws]
        rw [ih (s + (S - O)) (idx + 1) hrec]
        simp only [Bool.not_eq_true] at hws
        rw [hws]
        simp only [if_pos (rfl : (true : Bool) = true)]
        rfl
    · rw [chunkFixedAux, if_neg (by exact_mod_cast hs)]
      rw [emitFrom, windowStarts, dif_neg (fun hc => hs hc.1)]
      rfl

theorem chunk_fixed_eq_spec (parsed : ParsedDocument) (S O : Nat) (hO : O < S) :
    chunk_fixed parsed S O = fixedChunksSpec parsed.text.data S O := by
  unfold chunk_fixed
  have h0 : ((0 : Nat) : Int) = (0 : Int) := rfl
  rw [← h0, chunkFixedAux_eq_emitFrom parsed.text.data S O hO
    (parsed.text.data.length + 1) 0 0 (by omega)]
  rfl

theorem windowStarts_mem (n step : Nat) (hstep : 0 < step) :
    ∀ (k s : Nat), s + k * step < n → s + k * step ∈ windowStarts n step s := by
  intro k
  induction k with
  | zero =>
    intro s h
    simp only [Nat.zero_mul, Nat.add_zero] at h ⊢
    rw [windowStarts, dif_pos ⟨h, hstep⟩]
    exact List.mem_cons_self s _
  | succ k ih =>
    intro s h
    have hsn : s < n := by
      have : s ≤ s + (k + 1) * step := Nat.le_add_right s _
      omega
    rw [windowStarts, dif_pos ⟨hsn, hstep⟩]
    have harith : s + (k + 1) * step = (s + step) + k * step := by ring
    rw [harith]
    exact List.mem_cons_of_mem s (ih (s + step) (by omega))

theorem window_coverage (cs : List Char) (S O : Nat) (hO : O < S) :
    ∀ p < cs.length, ∃ s ∈ windowStarts cs.length (S - O) 0, s ≤ p ∧ p < s + S := by
  intro p hp
  have hstep : 0 < S - O := by omega
  have hdm := Nat.div_add_mod p (S - O)
  have hmod : p % (S - O) < S - O := Nat.mod_lt p hstep
  have hcomm : (p / (S - O)) * (S - O) = (S - O) * (p / (S - O)) := Nat.mul_comm _ _
  refine ⟨(p / (S - O)) * (S - O), ?_, by omega, by omega⟩
  have := windowStarts_mem cs.length (S - O) hstep (p / (S - O)) 0 (by omega)
  simpa using this

theorem dropFlat_eq (cs : List Char) (S O : Nat) (hO : O < S) (u : Nat) :
    ((windowStarts cs.length (S - O) u).map
        (fun w => (windowSlice cs S w).drop O)).flatten = cs.drop (u + O) := by
  rw [windowStarts]
  by_cases h : u < cs.length ∧ 0 < S - O
  · rw [dif_pos h]
    obtain ⟨hu, hstep⟩ := h
    simp only [List.map_cons, List.flatten_cons]
    rw [dropFlat_eq cs S O hO (u + (S - O))]
    have h1 : (windowSlice cs S u).drop O = (cs.drop (u + O)).take (S - O) := by
      unfold windowSlice
      rw [List.drop_drop, List.take_drop, show (u + O) + (S - O) = u + S from by omega]
    have h2 : cs.drop (u + (S - O) + O) = (cs.drop (u + O)).drop (S - O) := by
      rw [List.drop_drop, show u + (S - O) + O = (u + O) + (S - O) from by omega]
    rw [h1, h2, List.take_append_drop]
  · rw [dif_neg h]
    have hle : cs.length ≤ u + O := by omega
    rw [List.drop_eq_nil_of_le hle]
    rfl
termination_by cs.length - u
decreasing_by simp_wf; omega

theorem overlap_reconstruction (cs : List Char) (S O : Nat) (hO : O < S) :
    overlapConcat O ((windowStarts cs.length (S - O) 0).map (windowSlice cs S)) = cs := by
  rw [windowStarts]
  by_cases h : 0 < cs.length ∧ 0 < S - O
  · rw [dif_pos h]
    simp only [List.map_cons]
    rw [overlapConcat, List.map_map]
    have hcomp : ((fun d : List Char => d.drop O) ∘ windowSlice cs S)
        = fun w => (windowSlice cs S w).drop O := rfl
    rw [hcomp, dropFlat_eq cs S O hO (0 + (S - O))]
    have h1 : windowSlice cs S 0 = cs.take S := by
      unfold windowSlice
      simp
    have h2 : 0 + (S - O) + O = S := by omega
    rw [h1, h2, List.take_append_drop]
  · rw [dif_neg h]
    have : cs.length = 0 := by omega
    rw [List.length_eq_zero] at this
    subst this
    rfl

theorem windowStarts_lt (n step s : Nat) : ∀ x ∈ windowStarts n step s, x < n := by
  rw [windowStarts]
  split_ifs with h
  · obtain ⟨hsn, hstep⟩ := h
    intro x hx
    rcases List.mem_cons.mp hx with rfl | hx'
    · exact hsn
    · exact windowStarts_lt n step (s + step) x hx'
  · intro x hx
    exact absurd hx (List.not_mem_nil x)
termination_by n - s
decreasing_by omega

theorem windowStarts_le (n step s : Nat) : ∀ x ∈ windowStarts n step s, s ≤ x := by
  rw [windowStarts]
  split_ifs with h
  · obtain ⟨hsn, hstep⟩ := h
    intro x hx
    rcases List.mem_cons.mp hx with rfl | hx'
    · exact le_refl x
    · have := windowStarts_le n step (s + step) x hx'
      omega
  · intro x hx
    exact absurd hx (List.not_mem_nil x)
termination_by n - s
decreasing_by omega

theorem windowStarts_pairwise (n step s : Nat) :
    List.Pairwise (· < ·) (windowStarts n step s) := by
  rw [windowStarts]
  split_ifs with h
  · obtain ⟨hsn, hstep⟩ := h
    refine List.pairwise_cons.mpr ⟨?_, windowStarts_pairwise n step (s + step)⟩
    intro x hx
    have := windowStarts_le n step (s + step) x hx
    omega
  · exact List.Pairwise.nil
termination_by n - s
decreasing_by omega

theorem filter_range'_union (q q1 q2 : Nat → Bool) (m : Nat)
    (hq : ∀ p, q p = (q1 p || q2 p))
    (h1 : ∀ p, q1 p = true → p < m) (h2 : ∀ p, q2 p = true → m ≤ p) :
    ∀ (k a : Nat), (List.range' a k).filter q
      = (List.range' a k).filter q1 ++ (List.range' a k).filter q2 := by
  intro k
  induction k with
  | zero => intro a; rfl
  | succ k ih =>
    intro a
    rw [List.range'_succ]
    by_cases hq1 : q1 a = true
    · have hq2 : q2 a = false := by
        cases hq2v : q2 a
        · rfl
        · exact absurd (h1 a hq1) (by have := h2 a hq2v; omega)
      rw [List.filter_cons_of_pos (by rw [hq a, hq1]; rfl),
        List.filter_cons_of_pos hq1,
        List.filter_cons_of_neg (by rw [hq2]; exact Bool.false_ne_true),
        ih (a + 1), List.cons_append]
    · have hq1f : q1 a = false := by
        cases hq1v : q1 a
        · rfl
        · exact absurd hq1v hq1
      by_cases hq2 : q2 a = true
      · have hnil : (List.range' (a + 1) k).filter q1 = [] := by
          apply List.filter_eq_nil_iff.mpr
          intro x hx
          have hax := List.mem_range'_1.mp hx
          have hma := h2 a hq2
          intro hq1x
          have := h1 x hq1x
          omega
        rw [List.filter_cons_of_pos (by rw [hq a, hq1f, hq2]; rfl),
          List.filter_cons_of_neg hq1,
          List.filter_cons_of_pos hq2,
          ih (a + 1), hnil]
        rfl
      · have hq2f : q2 a = false := by
          cases hq2v : q2 a
          · rfl
          · exact absurd hq2v hq2
        rw [List.filter_cons_of_neg (by rw [hq a, hq1f, hq2f]; exact Bool.false_ne_true),
          List.filter_cons_of_neg hq1,
          List.filter_cons_of_neg hq2,
          ih (a + 1)]

theorem filter_range'_Ico (a b : Nat) :
    ∀ (k s : Nat), (List.range' s k).filter (fun p => decide (a ≤ p) && decide (p < b))
      = List.range' (max a s) (min b (s + k) - max a s) := by
  intro k
  induction k with
  | zero =>
    intro s
    rw [show min b (s + 0) - max a s = 0 from by omega]
    rfl
  | succ k ih =>
    intro s
    rw [List.range'_succ]
    by_cases hc : a ≤ s ∧ s < b
    · rw [List.filter_cons_of_pos
        (by rw [decide_eq_true hc.1, decide_eq_true hc.2]; rfl)]
      rw [ih (s + 1)]
      rw [show max a (s + 1) = s + 1 from by omega,
        show max a s = s from by omega,
        show min b (s + (k + 1)) - s = (min b (s + 1 + k) - (s + 1)) + 1 from by omega,
        List.range'_succ]
    · rw [List.filter_cons_of_neg (by simpa using hc)]
      rw [ih (s + 1)]
      rcases Nat.lt_or_ge s a with hsa | hsa
      · rw [show max a s = a from by omega, show max a (s + 1) = a from by omega,
          show s + 1 + k = s + (k + 1) from by omega]
      · have hb : b ≤ s := by omega
        rw [show min b (s + 1 + k) - max a (s + 1) = 0 from by omega,
          show min b (s + (k + 1)) - max a s = 0 from by omega]
        rfl

theorem map_getD_range' (cs : List Char) :
    ∀ (k s : Nat), s + k ≤ cs.length →
      (List.range' s k).map (fun p => cs.getD p ' ') = (cs.drop s).take k := by
  intro k
  induction k with
  | zero =>
    intro s _
    simp
  | succ k ih =>
    intro s h
    have hs : s < cs.length := by omega
    rw [List.range'_succ, List.map_cons, List.drop_eq_getElem_cons hs,
      List.take_succ_cons, ih (s + 1) (by omega)]
    congr 1
    rw [List.getD_eq_getElem?_getD, List.getElem?_eq_getElem hs]
    rfl

theorem mergeKept_eq_filter (cs : List Char) (S : Nat) :
    ∀ ks : List Nat, List.Pairwise (· < ·) ks → (∀ s ∈ ks, s < cs.length) →
      mergeKept cs S ks
        = ((List.range cs.length).filter
            (fun p => ks.any (fun s => decide (s ≤ p) && decide (p < s + S)))).map
            (fun p => cs.getD p ' ') := by
  intro ks
  induction ks with
  | nil =>
    intro _ _
    rw [show ((List.range cs.length).filter
        (fun p => ([] : List Nat).any (fun s => decide (s ≤ p) && decide (p < s + S)))) = []
      from List.filter_eq_nil_iff.mpr (fun x _ => by simp)]
    rfl
  | cons s1 tail ih =>
    intro hpw hbound
    have hs1len : s1 < cs.length := hbound s1 (List.mem_cons_self s1 tail)
    cases tail with
    | nil =>
      have hany : ∀ p ∈ List.range cs.length,
          ([s1].any (fun s => decide (s ≤ p) && decide (p < s + S)))
            = (decide (s1 ≤ p) && decide (p < s1 + S)) := by
        intro p _
        rw [List.any_cons, List.any_nil, Bool.or_false]
      rw [show mergeKept cs S [s1] = windowSlice cs S s1 from rfl,
        List.filter_congr hany, List.range_eq_range',
        filter_range'_Ico s1 (s1 + S) cs.length 0,
        show max s1 0 = s1 from by omega,
        map_getD_range' cs (min (s1 + S) (0 + cs.length) - s1) s1 (by omega)]
      unfold windowSlice
      rw [List.drop_take, show s1 + S - s1 = S from by omega]
      apply List.take_eq_take.mpr
      rw [List.length_drop]
      omega
    | cons s2 rest =>
      have hs12 : s1 < s2 := (List.pairwise_cons.mp hpw).1 s2 (List.mem_cons_self s2 rest)
      have hpw' : List.Pairwise (· < ·) (s2 :: rest) := (List.pairwise_cons.mp hpw).2
      have hbound' : ∀ s ∈ s2 :: rest, s < cs.length :=
        fun s hs => hbound s (List.mem_cons_of_mem s1 hs)
      have htail_ge : ∀ s ∈ s2 :: rest, s2 ≤ s := by
        intro s hs
        rcases List.mem_cons.mp hs with rfl | hs'
        · exact le_refl s
        · exact le_of_lt ((List.pairwise_cons.mp hpw').1 s hs')
      have htail_le : ∀ p, ((s2 :: rest).any
          (fun s => decide (s ≤ p) && decide (p < s + S))) = true → s2 ≤ p := by
        intro p hp
        obtain ⟨s, hs, hsp⟩ := List.any_eq_true.mp hp
        obtain ⟨hle, _⟩ := Bool.and_eq_true_iff.mp hsp
        have := of_decide_eq_true hle
        have := htail_ge s hs
        omega
      have hpred : ∀ p ∈ List.range cs.length,
          ((s1 :: s2 :: rest).any (fun s => decide (s ≤ p) && decide (p < s + S)))
            = ((decide (s1 ≤ p) && decide (p < min (s1 + S) s2))
               || (s2 :: rest).any (fun s => decide (s ≤ p) && decide (p < s + S))) := by
        intro p _
        rw [List.any_cons]
        by_cases hps2 : p < s2
        · have htail : ((s2 :: rest).any
              (fun s => decide (s ≤ p) && decide (p < s + S))) = false := by
            rw [List.any_eq_false]
            intro s hs
            have := htail_ge s hs
            intro hcontra
            obtain ⟨hle, _⟩ := Bool.and_eq_true_iff.mp hcontra
            have := of_decide_eq_true hle
            omega
          rw [htail, Bool.or_false, Bool.or_false]
          rw [show decide (p < s1 + S) = decide (p < min (s1 + S) s2) from
            decide_eq_decide.mpr ⟨fun h => by omega, fun h => by omega⟩]
        · have hnlt : ¬ (p < min (s1 + S) s2) := by omega
          rw [show decide (p < min (s1 + S) s2) = false from decide_eq_false hnlt,
            Bool.and_false, Bool.false_or]
          by_cases hh : (decide (s1 ≤ p) && decide (p < s1 + S)) = true
          · obtain ⟨_, hlt⟩ := Bool.and_eq_true_iff.mp hh
            have hps1S := of_decide_eq_true hlt
            have htl : ((s2 :: rest).any
                (fun s => decide (s ≤ p) && decide (p < s + S))) = true := by
              rw [List.any_cons,
                decide_eq_true (by omega : s2 ≤ p),
                decide_eq_true (by omega : p < s2 + S)]
              rfl
            rw [hh, htl]
            rfl
          · have hhf : (decide (s1 ≤ p) && decide (p < s1 + S)) = false := by
              cases hval : (decide (s1 ≤ p) && decide (p < s1 + S))
              · rfl
              · exact absurd hval hh
            rw [hhf, Bool.false_or]
      rw [show mergeKept cs S (s1 :: s2 :: rest)
          = (windowSlice cs S s1).take (s2 - s1) ++ mergeKept cs S (s2 :: rest) from rfl,
        List.filter_congr hpred, List.range_eq_range',
        filter_range'_union
          (fun p => (decide (s1 ≤ p) && decide (p < min (s1 + S) s2))
            || (s2 :: rest).any (fun s => decide (s ≤ p) && decide (p < s + S)))
          (fun p => decide (s1 ≤ p) && decide (p < min (s1 + S) s2))
          (fun p => (s2 :: rest).any (fun s => decide (s ≤ p) && decide (p < s + S)))
          s2 (fun p => rfl)
          (fun p hp => by
            obtain ⟨_, hlt⟩ := Bool.and_eq_true_iff.mp hp
            have := of_decide_eq_true hlt
            omega)
          htail_le cs.length 0,
        List.map_append]
      congr 1
      · rw [filter_range'_Ico s1 (min (s1 + S) s2) cs.length 0,
          show max s1 0 = s1 from by omega,
          map_getD_range' cs (min (min (s1 + S) s2) (0 + cs.length) - s1) s1 (by omega)]
        unfold windowSlice
        rw [List.drop_take, show s1 + S - s1 = S from by omega, List.take_take]
        apply List.take_eq_take.mpr
        rw [List.length_drop]
        omega
      · rw [← List.range_eq_range']
        exact ih hpw' hbound'

theorem kept_reconstruction (cs : List Char) (S O : Nat) :
    mergeKept cs S (keptStarts cs S O)
      = ((List.range cs.length).filter
          (fun p => (windowStarts cs.length (S - O) 0).any
            (fun s => !allWS (windowSlice cs S s)
              && (decide (s ≤ p) && decide (p < s + S))))).map
          (fun p => cs.getD p ' ') := by
  have hpw : List.Pairwise (· < ·) (keptStarts cs S O) :=
    (windowStarts_pairwise cs.length (S - O) 0).sublist
      (List.filter_sublist (windowStarts cs.length (S - O) 0))
  have hlt : ∀ s ∈ keptStarts cs S O, s < cs.length := by
    intro s hs
    exact windowStarts_lt cs.length (S - O) 0 s (List.mem_of_mem_filter hs)
  rw [mergeKept_eq_filter cs S (keptStarts cs S O) hpw hlt]
  congr 1
  apply List.filter_congr
  intro p _
  exact List.any_filter

/-- C4: with `overlap < chunk_size`, the fixed segmenter equals its
closed form — the windows `text[start : start + S]` at starts `0, step,
2*step, ...` (`step = S - O`), all-whitespace windows skipped but still
advanced past, the loop stopping once the start reaches the text length;
every character position is covered by some window; the emitted chunk
texts are exactly the kept (non-whitespace) windows in start order; for
every text, concatenating the emitted chunk spans with each window cut
at its successor's start (the overlap shared with the successor removed)
reconstructs the characters covered by at least one kept window — i.e.
the original text minus only the characters covered solely by
whitespace-only windows; and when no window is whitespace-only,
concatenating the chunk texts minus the `O`-character overlap of each
successor window reconstructs the original text exactly. -/
theorem fixed_segmentation_spec (parsed : ParsedDocument) (S O : Nat) (hO : O < S) :
    chunk_fixed parsed S O = fixedChunksSpec parsed.text.data S O ∧
    (∀ p < parsed.text.data.length,
       ∃ s ∈ windowStarts parsed.text.data.length (S - O) 0, s ≤ p ∧ p < s + S) ∧
    (chunk_fixed parsed S O).map (fun c => c.text.data)
      = (keptStarts parsed.text.data S O).map (windowSlice parsed.text.data S) ∧
    mergeKept parsed.text.data S (keptStarts parsed.text.data S O)
      = ((List.range parsed.text.data.length).filter
          (fun p => (windowStarts parsed.text.data.length (S - O) 0).any
            (fun s => !allWS (windowSlice parsed.text.data S s)
              && (decide (s ≤ p) && decide (p < s + S))))).map
          (fun p => parsed.text.data.getD p ' ') ∧
    ((∀ s ∈ windowStarts parsed.text.data.length (S - O) 0,
        ¬ allWS (windowSlice parsed.text.data S s) = true) →
      overlapConcat O ((chunk_fixed parsed S O).map (fun c => c.text.data))
        = parsed.text.data) := by
  have hkept : (chunk_fixed parsed S O).map (fun c => c.text.data)
      = (keptStarts parsed.text.data S O).map (windowSlice parsed.text.data S) := by
    rw [chunk_fixed_eq_spec parsed S O hO]
    unfold fixedChunksSpec keptStarts
    rw [List.map_map,
      show ((fun c : Chunk => c.text.data) ∘
        (fun p : Nat × List Char =>
          ({ text := String.mk p.2, strategy := "fixed", chunkIndex := p.1 } : Chunk)))
        = Prod.snd from rfl,
      List.enum_map_snd, List.filter_map]
    rfl
  refine ⟨chunk_fixed_eq_spec parsed S O hO, window_coverage parsed.text.data S O hO,
    hkept, kept_reconstruction parsed.text.data S O, ?_⟩
  intro hall
  rw [chunk_fixed_eq_spec parsed S O hO]
  set cs := parsed.text.data with hcs
  have hfilter : ((windowStarts cs.length (S - O) 0).map (windowSlice cs S)).filter
      (fun ct => !allWS ct) = (windowStarts cs.length (S - O) 0).map (windowSlice cs S) := by
    apply List.filter_eq_self.mpr
    intro ct hct
    rw [List.mem_map] at hct
    obtain ⟨s, hsmem, rfl⟩ := hct
    simp only [Bool.not_eq_true']
    exact Bool.not_eq_true _ |>.mp (hall s hsmem)
  have htexts : (fixedChunksSpec cs S O).map (fun c => c.text.data)
      = (windowStarts cs.length (S - O) 0).map (windowSlice cs S) := by
    unfold fixedChunksSpec
    rw [hfilter, List.map_map]
    have : ((fun c : Chunk => c.text.data) ∘
        (fun p : Nat × List Char =>
          ({ text := String.mk p.2, strategy := "fixed", chunkIndex := p.1 } : Chunk)))
        = Prod.snd := rfl
    rw [this, List.enum_map_snd]
  rw [htexts]
  exact overlap_reconstruction cs S O hO

/-! ## Supporting lemmas: chunk invariants (claim C8) -/

theorem makeChunk_not_allWS (parts : List String) (idx : Nat) (hne : parts ≠ [])
    (hws : ∀ p ∈ parts, allWS p.data = false) :
    allWS (makeChunk parts idx).text.data = false := by
  obtain ⟨p, hp⟩ := List.exists_mem_of_ne_nil parts hne
  have hdata : (makeChunk parts idx).text.data
      = joinSep "\n\n".data (parts.map String.data) := rfl
  rw [hdata]
  exact joinSep_not_allWS _ _ p.data (List.mem_map_of_mem _ hp) (hws p hp)

theorem chunkStructGo_not_allWS (targetSize : Nat) :
    ∀ (st : List Block) (current : List String) (size idx : Nat),
      (∀ b ∈ st, b.text ≠ "" → allWS b.text.data = false) →
      (∀ p ∈ current, allWS p.data = false) →
      ∀ c ∈ chunkStructGo targetSize st current size idx, allWS c.text.data = false := by
  intro st
  induction st with
  | nil =>
    intro current size idx _ hcur c hc
    rw [chunkStructGo] at hc
    split_ifs at hc with h
    · cases hc
    · rw [List.mem_singleton] at hc
      subst hc
      exact makeChunk_not_allWS current idx h hcur
  | cons b rest ih =>
    intro current size idx hst hcur c hc
    have hb := hst b (List.mem_cons_self b rest)
    have hrest : ∀ x ∈ rest, x.text ≠ "" → allWS x.text.data = false :=
      fun x hx => hst x (List.mem_cons_of_mem b hx)
    rw [chunkStructGo] at hc
    split_ifs at hc with h1 h2 h3
    · exact ih current size idx hrest hcur c hc
    · rw [List.mem_cons] at hc
      rcases hc with rfl | hc
      · exact makeChunk_not_allWS current idx h2.2.1 hcur
      · refine ih [b.text] _ _ hrest ?_ c hc
        intro p hp
        rw [List.mem_singleton] at hp
        subst hp
        exact hb h1
    · rw [List.mem_cons] at hc
      rcases hc with rfl | hc
      · exact makeChunk_not_allWS current idx h3.2 hcur
      · refine ih [b.text] _ _ hrest ?_ c hc
        intro p hp
        rw [List.mem_singleton] at hp
        subst hp
        exact hb h1
    · refine ih (current ++ [b.text]) _ _ hrest ?_ c hc
      intro p hp
      rw [List.mem_append, List.mem_singleton] at hp
      rcases hp with hp | rfl
      · exact hcur p hp
      · exact hb h1

theorem chunkStructGo_indices (targetSize : Nat) :
    ∀ (st : List Block) (current : List String) (size idx : Nat),
      (chunkStructGo targetSize st current size idx).map (fun c => c.chunkIndex)
        = List.range' idx (chunkStructGo targetSize st current size idx).length := by
  intro st
  induction st with
  | nil =>
    intro current size idx
    rw [chunkStructGo]
    split_ifs <;> rfl
  | cons b rest ih =>
    intro current size idx
    rw [chunkStructGo]
    split_ifs with h1 h2 h3
    · exact ih current size idx
    · simp only [List.map_cons, List.length_cons, List.range']
      rw [ih [b.text] _ (idx + 1)]
      rfl
    · simp only [List.map_cons, List.length_cons, List.range']
      rw [ih [b.text] _ (idx + 1)]
      rfl
    · exact ih (current ++ [b.text]) _ idx

theorem fallbackBlocks_not_allWS (text : String) :
    ∀ b ∈ fallbackBlocks text, b ≠ "" ∧ allWS b.data = false := by
  intro b hb
  unfold fallbackBlocks at hb
  rw [List.mem_filter] at hb
  obtain ⟨hmem, hne⟩ := hb
  rw [List.mem_map] at hmem
  obtain ⟨x, -, rfl⟩ := hmem
  have hne' : pyStrip x ≠ "" := by simpa using hne
  exact ⟨hne', pyStrip_not_allWS x hne'⟩

theorem fixedChunks_not_allWS (cs : List Char) (S O : Nat) :
    ∀ c ∈ fixedChunksSpec cs S O, allWS c.text.data = false := by
  intro c hc
  unfold fixedChunksSpec at hc
  rw [List.mem_map] at hc
  obtain ⟨p, hp, rfl⟩ := hc
  have hp' : p.2 ∈ ((windowStarts cs.length (S - O) 0).map (windowSlice cs S)).filter
      (fun ct => !allWS ct) := by
    have := List.enumFrom_map_snd 0 (((windowStarts cs.length (S - O) 0).map
      (windowSlice cs S)).filter (fun ct => !allWS ct))
    rw [← this]
    exact List.mem_map_of_mem Prod.snd hp
  rw [List.mem_filter] at hp'
  have := hp'.2
  simpa using this

theorem fixedChunksSpec_indices (cs : List Char) (S O : Nat) :
    (fixedChunksSpec cs S O).map (fun c => c.chunkIndex)
      = List.range (fixedChunksSpec cs S O).length := by
  unfold fixedChunksSpec
  rw [List.map_map]
  have hcomp : ((fun c : Chunk => c.chunkIndex) ∘
      (fun p : Nat × List Char =>
        ({ text := String.mk p.2, strategy := "fixed", chunkIndex := p.1 } : Chunk)))
      = Prod.fst := rfl
  rw [hcomp, List.length_map]
  have := List.enumFrom_map_fst 0 (((windowStarts cs.length (S - O) 0).map
    (windowSlice cs S)).filter (fun ct => !allWS ct))
  rw [show List.enum (((windowStarts cs.length (S - O) 0).map
    (windowSlice cs S)).filter (fun ct => !allWS ct))
    = List.enumFrom 0 (((windowStarts cs.length (S - O) 0).map
    (windowSlice cs S)).filter (fun ct => !allWS ct)) from rfl, this]
  rw [List.enumFrom_length]
  exact (List.range_eq_range' _).symm ▸ rfl

/-- C8 is refuted as stated: a structure block whose text is whitespace
but non-empty (here `"   "`) passes the `if not block_text` guard of
`_chunk_from_structure` and becomes a dynamic chunk whose text trims to
the empty string. -/
theorem chunk_invariants_counterexample :
    (chunk_document
        { text := "x",
          docStructure := [{ type := "paragraph", level := 0, text := "   " }] }
        "dynamic" 1024 128).map (fun c => pyStrip c.text) = [""] := by decide

/-- C8 (amended): for every `ParsedDocument` whose structure blocks are
never whitespace-only (vacuously true for the fixed strategy and the
blank-line-split fallback, which filter such blocks; the unguarded case
is refuted by the counterexample) and `overlap < chunk_size`, every
emitted chunk of either strategy has text that is non-empty after
whitespace trim, and chunk indices are assigned strictly increasing from
0 in emission order (the output order, which is never revisited). -/
theorem chunk_invariants_amended (parsed : ParsedDocument) (S O : Nat) (hO : O < S)
    (strat : String)
    (hblocks : ∀ b ∈ parsed.docStructure, b.text ≠ "" → pyStrip b.text ≠ "") :
    (∀ c ∈ chunk_document parsed strat S O, pyStrip c.text ≠ "") ∧
    (chunk_document parsed strat S O).map (fun c => c.chunkIndex)
      = List.range (chunk_document parsed strat S O).length := by
  have hws_of : ∀ (c : Chunk), allWS c.text.data = false → pyStrip c.text ≠ "" := by
    intro c hws hstrip
    rw [pyStrip_eq_empty_iff] at hstrip
    rw [hstrip] at hws
    simp at hws
  unfold chunk_document
  split_ifs with hfix
  · -- fixed strategy
    rw [chunk_fixed_eq_spec parsed S O hO]
    refine ⟨?_, fixedChunksSpec_indices parsed.text.data S O⟩
    intro c hc
    exact hws_of c (fixedChunks_not_allWS parsed.text.data S O c hc)
  · -- dynamic strategy
    unfold chunk_dynamic
    split_ifs with hstruct
    · unfold chunk_from_structure
      constructor
      · intro c hc
        refine hws_of c (chunkStructGo_not_allWS S parsed.docStructure [] 0 0 ?_
          (by intro p hp; cases hp) c hc)
        intro b hb hbne
        have := hblocks b hb hbne
        exact Bool.not_eq_true _ |>.mp fun hcontra =>
          this ((pyStrip_eq_empty_iff b.text).mpr hcontra)
      · rw [chunkStructGo_indices S parsed.docStructure [] 0 0]
        exact (List.range_eq_range' _).symm ▸ rfl
    · unfold chunk_from_structure
      constructor
      · intro c hc
        refine hws_of c (chunkStructGo_not_allWS S _ [] 0 0 ?_
          (by intro p hp; cases hp) c hc)
        intro b hb _
        rw [List.mem_map] at hb
        obtain ⟨x, hx, rfl⟩ := hb
        exact (fallbackBlocks_not_allWS parsed.text x hx).2
      · rw [chunkStructGo_indices S _ [] 0 0]
        exact (List.range_eq_range' _).symm ▸ rfl

/-! ## Supporting lemmas: co-occurrence graph (claim C3) -/

/-- Total weight stored in the edge dict under an exact key. -/
def dictWeight (m : List ((String × String) × ℚ)) (k : String × String) : ℚ :=
  ((m.filter (fun e => e.1 = k)).map (fun e => e.2)).sum

theorem dictWeight_nil (x : String × String) : dictWeight [] x = 0 := rfl

theorem dictWeight_cons (e : (String × String) × ℚ)
    (rest : List ((String × String) × ℚ)) (x : String × String) :
    dictWeight (e :: rest) x = (if e.1 = x then e.2 else 0) + dictWeight rest x := by
  unfold dictWeight
  rw [List.filter_cons]
  by_cases h : e.1 = x
  · simp [h]
  · simp [h]

theorem dictWeight_bumpEdge (m : List ((String × String) × ℚ)) (k x : String × String) :
    dictWeight (bumpEdge m k) x = dictWeight m x + (if x = k then 1 else 0) := by
  induction m with
  | nil =>
    show dictWeight [(k, 1)] x = dictWeight [] x + (if x = k then 1 else 0)
    rw [dictWeight_cons]
    by_cases h : x = k
    · rw [if_pos (show ((k, (1 : ℚ))).1 = x from h.symm), if_pos h]
      show (1 : ℚ) + dictWeight [] x = dictWeight [] x + 1
      rw [dictWeight_nil]
      ring
    · rw [if_neg (show ¬ ((k, (1 : ℚ))).1 = x from fun hc => h hc.symm), if_neg h]
      show (0 : ℚ) + dictWeight [] x = dictWeight [] x + 0
      ring
  | cons e rest ih =>
    obtain ⟨k', w⟩ := e
    rw [bumpEdge]
    by_cases hk : k' = k
    · subst hk
      rw [if_pos rfl, dictWeight_cons, dictWeight_cons]
      by_cases hx : x = k'
      · rw [if_pos hx.symm, if_pos hx.symm, if_pos hx]
        ring
      · rw [if_neg (fun hc => hx hc.symm), if_neg (fun hc => hx hc.symm), if_neg hx]
        ring
    · rw [if_neg hk, dictWeight_cons, dictWeight_cons, ih]
      ring

theorem keys_bumpEdge (m : List ((String × String) × ℚ)) (k : String × String) :
    (bumpEdge m k).map Prod.fst =
      if k ∈ m.map Prod.fst then m.map Prod.fst else m.map Prod.fst ++ [k] := by
  induction m with
  | nil => simp [bumpEdge]
  | cons e rest ih =>
    obtain ⟨k', w⟩ := e
    rw [bumpEdge]
    by_cases hk : k' = k
    · subst hk
      simp
    · rw [if_neg hk]
      simp only [List.map_cons, List.mem_cons]
      rw [ih]
      by_cases hmem : k ∈ rest.map Prod.fst
      · rw [if_pos hmem, if_pos (Or.inr hmem)]
      · rw [if_neg hmem, if_neg (by rintro (hc | hc); exact hk hc.symm; exact hmem hc)]
        rfl

/-- The edge-dict invariant: distinct keys (it is a dict) and every key a
strictly sorted pair. -/
def EdgeInv (m : List ((String × String) × ℚ)) : Prop :=
  (m.map Prod.fst).Nodup ∧ ∀ e ∈ m, e.1.1 < e.1.2

theorem sortPair_lt (a b : String) (hab : a ≠ b) :
    (sortPair a b).1 < (sortPair a b).2 := by
  unfold sortPair
  split_ifs with h
  · exact lt_of_le_of_ne h hab
  · exact lt_of_le_of_ne (le_of_not_le h) (Ne.symm hab)

theorem sortPair_comm (x y : String) : sortPair x y = sortPair y x := by
  by_cases hxy : x = y
  · subst hxy
    rfl
  · unfold sortPair
    split_ifs with h1 h2 h2
    · exact absurd (le_antisymm h1 h2) hxy
    · rfl
    · rfl
    · rcases le_total x y with h | h
      · exact absurd h h1
      · exact absurd h h2

theorem sortPair_eq_iff (a b x y : String) (hab : a ≠ b) (hxy : x ≠ y) :
    sortPair x y = sortPair a b ↔ (x = a ∧ y = b) ∨ (x = b ∧ y = a) := by
  constructor
  · intro h
    unfold sortPair at h
    split_ifs at h with h1 h2 h2 <;> simp only [Prod.mk.injEq] at h
    · exact Or.inl h
    · exact Or.inr h
    · exact Or.inr ⟨h.2, h.1⟩
    · exact Or.inl ⟨h.2, h.1⟩
  · rintro (⟨rfl, rfl⟩ | ⟨rfl, rfl⟩)
    · rfl
    · exact sortPair_comm x y

theorem EdgeInv_bumpEdge (m : List ((String × String) × ℚ)) (k : String × String)
    (hinv : EdgeInv m) (hk : k.1 < k.2) : EdgeInv (bumpEdge m k) := by
  obtain ⟨hnd, hnorm⟩ := hinv
  constructor
  · rw [keys_bumpEdge]
    split_ifs with hmem
    · exact hnd
    · rw [List.nodup_append]
      exact ⟨hnd, List.nodup_singleton k, by simpa using hmem⟩
  · intro e he
    -- every element of `bumpEdge m k` is an element of `m`, or has key `k`
    have : e ∈ m ∨ e.1 = k := by
      clear hnd hnorm
      induction m with
      | nil =>
        unfold bumpEdge at he
        rw [List.mem_singleton] at he
        exact Or.inr (by rw [he])
      | cons e' rest ih =>
        obtain ⟨k', w⟩ := e'
        rw [bumpEdge] at he
        split_ifs at he with hk'
        · rw [List.mem_cons] at he
          rcases he with rfl | he
          · subst hk'
            exact Or.inr rfl
          · exact Or.inl (List.mem_cons_of_mem _ he)
        · rw [List.mem_cons] at he
          rcases he with rfl | he
          · exact Or.inl (List.mem_cons_self _ _)
          · rcases ih he with h | h
            · exact Or.inl (List.mem_cons_of_mem _ h)
            · exact Or.inr h
    rcases this with h | h
    · exact hnorm e h
    · rw [h]
      exact hk

/-- The inner loop `for b in entities[i_a+1:]` bumps the sorted pair
once per matching later entity. -/
theorem dictWeight_innerFold (a : String) :
    ∀ (rest : List String) (m : List ((String × String) × ℚ)) (x : String × String),
      dictWeight (rest.foldl
          (fun acc b => if a ≠ b then bumpEdge acc (sortPair a b) else acc) m) x
        = dictWeight m x
          + ((rest.countP (fun b => a ≠ b ∧ sortPair a b = x)) : ℚ) := by
  intro rest
  induction rest with
  | nil => intro m x; simp
  | cons b rest ih =>
    intro m x
    rw [List.foldl_cons]
    by_cases hab : a ≠ b
    · rw [if_pos hab, ih, dictWeight_bumpEdge, List.countP_cons]
      by_cases hx : sortPair a b = x
      · rw [if_pos hx.symm, if_pos (by simp [hab, hx])]
        push_cast
        ring
      · rw [if_neg (fun hcon => hx hcon.symm), if_neg (by simp [hab, hx])]
        push_cast
        ring
    · have hb : a = b := not_not.mp hab
      rw [if_neg hab, ih, List.countP_cons, if_neg (by simp [hb])]
      push_cast
      ring

theorem EdgeInv_innerFold (a : String) :
    ∀ (rest : List String) (m : List ((String × String) × ℚ)), EdgeInv m →
      EdgeInv (rest.foldl
        (fun acc b => if a ≠ b then bumpEdge acc (sortPair a b) else acc) m) := by
  intro rest
  induction rest with
  | nil => intro m hm; exact hm
  | cons b rest ih =>
    intro m hm
    rw [List.foldl_cons]
    apply ih
    by_cases hab : a ≠ b
    · rw [if_pos hab]
      exact EdgeInv_bumpEdge m _ hm (sortPair_lt a b hab)
    · rw [if_neg hab]
      exact hm

theorem dictWeight_addChunkPairs (a b : String) (hab : a ≠ b) :
    ∀ (es : List String) (m : List ((String × String) × ℚ)), es.Nodup →
      dictWeight (addChunkPairs es m) (sortPair a b)
        = dictWeight m (sortPair a b)
          + (if a ∈ es ∧ b ∈ es then 1 else 0) := by
  intro es
  induction es with
  | nil =>
    intro m _
    rw [addChunkPairs]
    simp
  | cons c rest ih =>
    intro m hnd
    rw [List.nodup_cons] at hnd
    obtain ⟨hc, hndrest⟩ := hnd
    rw [addChunkPairs, ih _ hndrest, dictWeight_innerFold]
    have hcount : (rest.countP (fun b' => c ≠ b' ∧ sortPair c b' = sortPair a b) : ℚ)
        + (if a ∈ rest ∧ b ∈ rest then (1 : ℚ) else 0)
        = (if a ∈ c :: rest ∧ b ∈ c :: rest then (1 : ℚ) else 0) := by
      by_cases hca : c = a
      · have hcb : c ≠ b := by rw [hca]; exact hab
        have hpred : ∀ b' : String,
            (decide (c ≠ b' ∧ sortPair c b' = sortPair a b)) = (b' == b) := by
          intro b'
          by_cases hb' : b' = b
          · rw [hb']
            have h1 : sortPair c b = sortPair a b := by rw [hca]
            have hconj : (c ≠ b ∧ sortPair c b = sortPair a b) := ⟨hcb, h1⟩
            exact (decide_eq_true hconj).trans (beq_self_eq_true b).symm
          · refine (decide_eq_false ?_).trans (beq_eq_false_iff_ne.mpr hb').symm
            intro hcontra
            rcases (sortPair_eq_iff a b c b' hab hcontra.1).mp hcontra.2 with h | h
            · exact hb' h.2
            · rw [hca] at h
              exact hab h.1
        rw [show (fun b' => decide (c ≠ b' ∧ sortPair c b' = sortPair a b))
            = (fun b' => b' == b) from funext hpred]
        rw [show rest.countP (fun b' => b' == b) = rest.count b from rfl]
        by_cases hbr : b ∈ rest
        · rw [List.count_eq_one_of_mem hndrest hbr,
            if_neg (fun hcon : a ∈ rest ∧ b ∈ rest => hc (by rw [hca]; exact hcon.1)),
            if_pos ⟨List.mem_cons.mpr (Or.inl hca.symm), List.mem_cons_of_mem c hbr⟩]
          norm_num
        · rw [List.count_eq_zero_of_not_mem hbr,
            if_neg (fun hcon : a ∈ rest ∧ b ∈ rest => hbr hcon.2),
            if_neg (fun hcon : a ∈ c :: rest ∧ b ∈ c :: rest => by
              rcases List.mem_cons.mp hcon.2 with h | h
              · rw [hca] at h
                exact hab h.symm
              · exact hbr h)]
          norm_num
      · by_cases hcb : c = b
        · have hca' : c ≠ a := hca
          have hpred : ∀ b' : String,
              (decide (c ≠ b' ∧ sortPair c b' = sortPair a b)) = (b' == a) := by
            intro b'
            by_cases hb' : b' = a
            · rw [hb']
              have h1 : sortPair c a = sortPair a b := by
                rw [hcb]
                exact sortPair_comm b a
              have h2 : c ≠ a := hca
              have hconj : (c ≠ a ∧ sortPair c a = sortPair a b) := ⟨h2, h1⟩
              exact (decide_eq_true hconj).trans (beq_self_eq_true a).symm
            · refine (decide_eq_false ?_).trans (beq_eq_false_iff_ne.mpr hb').symm
              intro hcontra
              rcases (sortPair_eq_iff a b c b' hab hcontra.1).mp hcontra.2 with h | h
              · exact hca h.1
              · exact hb' h.2
          rw [show (fun b' => decide (c ≠ b' ∧ sortPair c b' = sortPair a b))
              = (fun b' => b' == a) from funext hpred]
          rw [show rest.countP (fun b' => b' == a) = rest.count a from rfl]
          by_cases har : a ∈ rest
          · rw [List.count_eq_one_of_mem hndrest har,
              if_neg (fun hcon : a ∈ rest ∧ b ∈ rest => hc (by rw [hcb]; exact hcon.2)),
              if_pos ⟨List.mem_cons_of_mem c har, List.mem_cons.mpr (Or.inl hcb.symm)⟩]
            norm_num
          · rw [List.count_eq_zero_of_not_mem har,
              if_neg (fun hcon : a ∈ rest ∧ b ∈ rest => har hcon.1),
              if_neg (fun hcon : a ∈ c :: rest ∧ b ∈ c :: rest => by
                rcases List.mem_cons.mp hcon.1 with h | h
                · exact hab (h.trans hcb)
                · exact har h)]
            norm_num
        · have hpred : ∀ b' : String,
              (decide (c ≠ b' ∧ sortPair c b' = sortPair a b)) = false := by
            intro b'
            simp only [decide_eq_false_iff_not]
            intro hcontra
            rcases (sortPair_eq_iff a b c b' hab hcontra.1).mp hcontra.2 with h | h
            · exact hca h.1
            · exact hcb h.1
          rw [show (fun b' => decide (c ≠ b' ∧ sortPair c b' = sortPair a b))
              = (fun _ => false) from funext hpred]
          rw [List.countP_eq_zero.mpr (by intro x _; exact Bool.false_ne_true)]
          have hmema : a ∈ c :: rest ↔ a ∈ rest := by
            rw [List.mem_cons]
            exact ⟨fun h => h.resolve_left (fun hcon => hca hcon.symm), Or.inr⟩
          have hmemb : b ∈ c :: rest ↔ b ∈ rest := by
            rw [List.mem_cons]
            exact ⟨fun h => h.resolve_left (fun hcon => hcb hcon.symm), Or.inr⟩
          rw [show (if a ∈ c :: rest ∧ b ∈ c :: rest then (1 : ℚ) else 0)
              = (if a ∈ rest ∧ b ∈ rest then (1 : ℚ) else 0) from by
            by_cases h : a ∈ rest ∧ b ∈ rest
            · rw [if_pos h, if_pos ⟨hmema.mpr h.1, hmemb.mpr h.2⟩]
            · rw [if_neg h, if_neg (fun hcon => h ⟨hmema.mp hcon.1, hmemb.mp hcon.2⟩)]]
          norm_num
    rw [← hcount]
    ring

theorem EdgeInv_addChunkPairs :
    ∀ (es : List String) (m : List ((String × String) × ℚ)), EdgeInv m →
      EdgeInv (addChunkPairs es m)
  | [], _, hm => hm
  | c :: rest, m, hm =>
    EdgeInv_addChunkPairs rest _ (EdgeInv_innerFold c rest m hm)

theorem dictWeight_graphFold (extract : String → List String) (docId : Option String)
    (a b : String) (hab : a ≠ b) (hnd : ∀ t, (extract t).Nodup) :
    ∀ (ichunks : List (Nat × GChunk))
      (acc : List ((String × String) × ℚ) × List (String × List String)),
      dictWeight ((ichunks.foldl (graphStep extract docId) acc).1) (sortPair a b)
        = dictWeight acc.1 (sortPair a b)
          + ((ichunks.countP (fun ic => ic.2.text ≠ "" ∧
              a ∈ chunkEntities extract ic.2 ∧ b ∈ chunkEntities extract ic.2)) : ℚ) := by
  intro ichunks
  induction ichunks with
  | nil => intro acc; simp
  | cons ic rest ih =>
    intro acc
    rw [List.foldl_cons, ih, List.countP_cons]
    unfold graphStep
    by_cases htext : ic.2.text = ""
    · rw [if_pos htext, if_neg (by simp [htext])]
      push_cast
      ring
    · rw [if_neg htext]
      dsimp only
      rw [dictWeight_addChunkPairs a b hab (chunkEntities extract ic.2) acc.1
        (List.Nodup.filter _ (hnd ic.2.text))]
      by_cases hmem : a ∈ chunkEntities extract ic.2 ∧ b ∈ chunkEntities extract ic.2
      · rw [if_pos hmem, if_pos (decide_eq_true ⟨htext, hmem.1, hmem.2⟩)]
        push_cast
        ring
      · rw [if_neg hmem, if_neg (by
          simp only [decide_eq_true_eq]
          intro hcon
          exact hmem ⟨hcon.2.1, hcon.2.2⟩)]
        push_cast
        ring

theorem EdgeInv_graphFold (extract : String → List String) (docId : Option String) :
    ∀ (ichunks : List (Nat × GChunk))
      (acc : List ((String × String) × ℚ) × List (String × List String)),
      EdgeInv acc.1 → EdgeInv ((ichunks.foldl (graphStep extract docId) acc).1) := by
  intro ichunks
  induction ichunks with
  | nil => intro acc h; exact h
  | cons ic rest ih =>
    intro acc h
    rw [List.foldl_cons]
    apply ih
    unfold graphStep
    by_cases htext : ic.2.text = ""
    · rw [if_pos htext]
      exact h
    · rw [if_neg htext]
      exact EdgeInv_addChunkPairs (chunkEntities extract ic.2) acc.1 h

theorem length_filter_mono {α : Type} (l : List α) (p q : α → Bool)
    (h : ∀ x ∈ l, p x = true → q x = true) :
    (l.filter p).length ≤ (l.filter q).length := by
  induction l with
  | nil => exact le_refl 0
  | cons x rest ih =>
    have hrest := ih (fun y hy => h y (List.mem_cons_of_mem x hy))
    rw [List.filter_cons, List.filter_cons]
    by_cases hp : p x = true
    · rw [if_pos hp, if_pos (h x (List.mem_cons_self x rest) hp)]
      simpa using hrest
    · rw [if_neg hp]
      by_cases hq : q x = true
      · rw [if_pos hq]
        exact le_trans hrest (by simp)
      · rw [if_neg hq]
        exact hrest

theorem filter_key_length_le_one (m : List ((String × String) × ℚ))
    (k : String × String) (hnd : (m.map Prod.fst).Nodup) :
    (m.filter (fun e => e.1 = k)).length ≤ 1 := by
  induction m with
  | nil => exact Nat.zero_le 1
  | cons e rest ih =>
    rw [List.map_cons, List.nodup_cons] at hnd
    obtain ⟨hhead, hndrest⟩ := hnd
    rw [List.filter_cons]
    by_cases h : e.1 = k
    · rw [if_pos (decide_eq_true h)]
      have hnil : rest.filter (fun e' => decide (e'.1 = k)) = [] := by
        rw [List.filter_eq_nil_iff]
        intro x hx
        simp only [decide_eq_true_eq]
        intro hxk
        exact hhead (by
          rw [← h] at hxk
          rw [← hxk]
          exact List.mem_map_of_mem Prod.fst hx)
      rw [hnil]
      exact le_refl 1
    · rw [if_neg (by simpa using h)]
      exact ih hndrest

theorem edgeWeight_map (m : List ((String × String) × ℚ)) (a b : String) :
    edgeWeight (m.map (fun e => (e.1.1, e.1.2, e.2))) a b
      = dictWeight m (sortPair a b) := by
  induction m with
  | nil => rfl
  | cons e rest ih =>
    unfold edgeWeight at ih ⊢
    rw [List.map_cons, List.filter_cons, dictWeight_cons]
    by_cases h : e.1 = sortPair a b
    · rw [if_pos (decide_eq_true (show ((e.1.1, e.1.2) : String × String)
        = sortPair a b from h)), if_pos h]
      simp only [List.map_cons, List.sum_cons]
      rw [ih]
    · rw [if_neg (by simpa using h), if_neg h]
      rw [ih]
      ring

/-- C3: assuming the per-chunk entity extractor returns duplicate-free
lists, the builder emits at most one edge per unordered pair of distinct
entities, stores every edge's endpoints as the lexicographically sorted
pair (strictly, since the `a != b` guard excludes self-pairs), and the
weight stored for a pair equals exactly the number of chunks — after the
`len(e) > 1` entity filter and the empty-text skip — in which both
entities co-occur, +1.0 per co-occurring chunk regardless of in-chunk
repetition. -/
theorem cooccurrence_edges_spec (extract : String → List String)
    (hnd : ∀ t, (extract t).Nodup) (chunks : List GChunk) (docId : Option String)
    (a b : String) (hab : a ≠ b) :
    (((build_cooccurrence_edges extract chunks docId).1.filter
        (fun e => (e.1 = a ∧ e.2.1 = b) ∨ (e.1 = b ∧ e.2.1 = a))).length ≤ 1) ∧
    (∀ e ∈ (build_cooccurrence_edges extract chunks docId).1, e.1 < e.2.1) ∧
    edgeWeight (build_cooccurrence_edges extract chunks docId).1 a b
      = (coChunkCount extract chunks a b : ℚ) := by
  have hInv : EdgeInv ((chunks.enum.foldl (graphStep extract docId) ([], [])).1) := by
    apply EdgeInv_graphFold
    exact ⟨List.nodup_nil, by intro e he; cases he⟩
  refine ⟨?_, ?_, ?_⟩
  · -- at most one edge per unordered pair
    unfold build_cooccurrence_edges
    set dict := (chunks.enum.foldl (graphStep extract docId) ([], [])).1 with hdict
    have hmono : ((dict.map (fun e => (e.1.1, e.1.2, e.2))).filter
          (fun e => (e.1 = a ∧ e.2.1 = b) ∨ (e.1 = b ∧ e.2.1 = a))).length
        ≤ ((dict.map (fun e => (e.1.1, e.1.2, e.2))).filter
          (fun e => ((e.1, e.2.1) : String × String) = sortPair a b)).length := by
      apply length_filter_mono
      intro t ht hpred
      rw [List.mem_map] at ht
      obtain ⟨e', he', rfl⟩ := ht
      have hnorm : e'.1.1 < e'.1.2 := hInv.2 e' he'
      simp only [decide_eq_true_eq] at hpred ⊢
      unfold sortPair
      rcases hpred with ⟨h1, h2⟩ | ⟨h1, h2⟩
      · rw [← h1, ← h2]
        rw [if_pos (le_of_lt hnorm)]
      · rw [← h1, ← h2]
        rw [if_neg (not_le.mpr hnorm)]
    refine le_trans hmono ?_
    rw [List.filter_map, List.length_map]
    exact filter_key_length_le_one _ (sortPair a b) hInv.1
  · intro e he
    unfold build_cooccurrence_edges at he
    rw [List.mem_map] at he
    obtain ⟨e', he', rfl⟩ := he
    exact hInv.2 e' he'
  · unfold build_cooccurrence_edges
    rw [edgeWeight_map, dictWeight_graphFold extract docId a b hab hnd chunks.enum ([], [])]
    rw [show dictWeight ([], ([] : List (String × List String))).1 (sortPair a b) = 0
      from rfl]
    unfold coChunkCount
    rw [show chunks.countP (fun c => decide (c.text ≠ "" ∧ a ∈ chunkEntities extract c
        ∧ b ∈ chunkEntities extract c))
      = chunks.enum.countP (fun ic => decide (ic.2.text ≠ ""
        ∧ a ∈ chunkEntities extract ic.2 ∧ b ∈ chunkEntities extract ic.2)) from by
      conv_lhs => rw [← List.enumFrom_map_snd 0 chunks]
      rw [List.countP_map]
      rfl]
    ring

/-! ## Supporting lemmas: RAPTOR tree (claim C5) -/

theorem getD_of_lt {α : Type} (l : List α) (n : Nat) (d : α) (h : n < l.length) :
    l.getD n d = l[n] := by
  rw [List.getD_eq_getElem?_getD, List.getElem?_eq_getElem h]
  rfl

theorem argminIdx_lt_length (l : List ℚ) (hne : l ≠ []) : argminIdx l < l.length := by
  unfold argminIdx
  obtain ⟨m, hm⟩ : ∃ m, l.min? = some m := by
    cases h : l.min? with
    | none => exact absurd (List.min?_eq_none_iff.mp h) hne
    | some m => exact ⟨m, rfl⟩
  rw [hm]
  exact List.indexOf_lt_length.mpr (List.min?_mem (fun a b => min_choice a b) hm)

theorem argminIdx_min (l : List ℚ) (hne : l ≠ []) :
    ∀ d ∈ l, l.getD (argminIdx l) 0 ≤ d := by
  obtain ⟨m, hm⟩ : ∃ m, l.min? = some m := by
    cases h : l.min? with
    | none => exact absurd (List.min?_eq_none_iff.mp h) hne
    | some m => exact ⟨m, rfl⟩
  intro d hd
  have hidx : argminIdx l = l.indexOf m := by
    unfold argminIdx
    rw [hm]
    rfl
  have hmem : m ∈ l := List.min?_mem (fun a b => min_choice a b) hm
  have hlt2 : l.indexOf m < l.length := List.indexOf_lt_length.mpr hmem
  have hval : l.getD (argminIdx l) 0 = m := by
    rw [hidx, getD_of_lt l _ 0 hlt2]
    have hget := List.indexOf_get hlt2
    rw [List.get_eq_getElem] at hget
    exact hget
  rw [hval]
  exact (List.le_min?_iff (fun a b c => le_min_iff) hm).mp (le_refl m) d hd

theorem raptorLevel0Nodes_level (chunks : List GChunk) (embeddings : List (List ℚ))
    (docId : String) :
    ∀ node ∈ raptorLevel0Nodes chunks embeddings docId, node.raptorLevel = 0 := by
  intro node hnode
  unfold raptorLevel0Nodes at hnode
  rw [List.mem_map] at hnode
  obtain ⟨p, -, rfl⟩ := hnode
  rfl

theorem raptorLevel1Node_some (chunks : List GChunk) (embeddings : List (List ℚ))
    (labels : List Nat) (centroids : List (List ℚ)) (docId : String) (c : Nat)
    (node : TreeNode)
    (hsome : raptorLevel1Node chunks embeddings labels centroids docId c = some node) :
    clusterIndices labels c ≠ [] ∧
    node.raptorLevel = 1 ∧
    node.represents = some ((clusterIndices labels c).map
      (fun j => docId ++ "_" ++ toString j)) ∧
    ∃ i ∈ clusterIndices labels c,
      node.text = (chunks.getD i { text := "", chunkIndex := none }).text ∧
      ∀ j ∈ clusterIndices labels c,
        sqDist (embeddings.getD i []) (centroids.getD c [])
          ≤ sqDist (embeddings.getD j []) (centroids.getD c []) := by
  unfold raptorLevel1Node at hsome
  by_cases hind : clusterIndices labels c = []
  · rw [if_pos hind] at hsome
    cases hsome
  · rw [if_neg hind] at hsome
    injection hsome with hnode
    subst hnode
    refine ⟨hind, rfl, rfl, ?_⟩
    have hdne : (clusterIndices labels c).map
        (fun i => sqDist (embeddings.getD i []) (centroids.getD c [])) ≠ [] := by
      rw [Ne, List.map_eq_nil_iff]
      exact hind
    have hargmin := argminIdx_lt_length _ hdne
    rw [List.length_map] at hargmin
    refine ⟨(clusterIndices labels c).getD (argminIdx ((clusterIndices labels c).map
      (fun i => sqDist (embeddings.getD i []) (centroids.getD c [])))) 0, ?_, rfl, ?_⟩
    · rw [getD_of_lt _ _ 0 hargmin]
      exact List.getElem_mem _
    · intro j hj
      have hdval : ((clusterIndices labels c).map
          (fun i => sqDist (embeddings.getD i []) (centroids.getD c []))).getD
            (argminIdx ((clusterIndices labels c).map
              (fun i => sqDist (embeddings.getD i []) (centroids.getD c [])))) 0
          = sqDist (embeddings.getD ((clusterIndices labels c).getD
              (argminIdx ((clusterIndices labels c).map
                (fun i => sqDist (embeddings.getD i []) (centroids.getD c [])))) 0) [])
            (centroids.getD c []) := by
        rw [getD_of_lt _ _ 0 (by rw [List.length_map]; exact hargmin),
          getD_of_lt _ _ 0 hargmin]
        rw [List.getElem_map]
      have hle := argminIdx_min _ hdne
        (sqDist (embeddings.getD j []) (centroids.getD c []))
        (List.mem_map_of_mem _ hj)
      rw [hdval] at hle
      exact hle

/-- C5: for chunk and embedding lists of matching length and a k-means
collaborator returning `(labels, centroids)`, the tree builder always
emits exactly one level-0 node per chunk (identity mapping, ids
`{doc_id}_{i}` in chunk order, built into `raptorLevel0Nodes`); when
`chunk_count <= n_clusters` the output is exactly the level-0 nodes and
no level-1 node exists; otherwise at most `min(n_clusters, chunk_count)`
level-1 nodes are added, one per non-empty cluster, each carrying the
raw text of the member chunk whose embedding is (squared-)Euclidean
nearest to the cluster centroid — equivalently Euclidean nearest, as
`Real.sqrt` is monotone — together with the represented level-0
chunk-ids. -/
theorem raptor_tree_spec (km : List (List ℚ) → Nat → List Nat × List (List ℚ))
    (chunks : List GChunk) (embeddings : List (List ℚ)) (docId : String)
    (nClusters : Nat) (labels : List Nat) (centroids : List (List ℚ))
    (hkm : km embeddings (min nClusters chunks.length) = (labels, centroids))
    (hlen : embeddings.length = chunks.length) :
    ((build_raptor_tree km chunks embeddings docId nClusters).filter
        (fun n => n.raptorLevel = 0) = raptorLevel0Nodes chunks embeddings docId) ∧
    (raptorLevel0Nodes chunks embeddings docId).length = chunks.length ∧
    (chunks.length ≤ nClusters →
      build_raptor_tree km chunks embeddings docId nClusters
        = raptorLevel0Nodes chunks embeddings docId) ∧
    ((build_raptor_tree km chunks embeddings docId nClusters).filter
        (fun n => n.raptorLevel = 1)).length ≤ min nClusters chunks.length ∧
    (∀ node ∈ build_raptor_tree km chunks embeddings docId nClusters,
      node.raptorLevel = 1 →
      ∃ c < min nClusters chunks.length,
        clusterIndices labels c ≠ [] ∧
        node.represents = some ((clusterIndices labels c).map
          (fun j => docId ++ "_" ++ toString j)) ∧
        ∃ i ∈ clusterIndices labels c,
          node.text = (chunks.getD i { text := "", chunkIndex := none }).text ∧
          ∀ j ∈ clusterIndices labels c,
            sqDist (embeddings.getD i []) (centroids.getD c [])
              ≤ sqDist (embeddings.getD j []) (centroids.getD c []) ∧
            Real.sqrt ((sqDist (embeddings.getD i []) (centroids.getD c [])) : ℝ)
              ≤ Real.sqrt ((sqDist (embeddings.getD j []) (centroids.getD c [])) : ℝ)) := by
  have hlevel0 : ∀ n ∈ raptorLevel0Nodes chunks embeddings docId, n.raptorLevel = 0 :=
    raptorLevel0Nodes_level chunks embeddings docId
  have hcount : (raptorLevel0Nodes chunks embeddings docId).length = chunks.length := by
    unfold raptorLevel0Nodes
    rw [List.length_map, List.enum_length, List.length_zip, hlen, min_self]
  have hfilter0 : (raptorLevel0Nodes chunks embeddings docId).filter
      (fun n => n.raptorLevel = 0) = raptorLevel0Nodes chunks embeddings docId := by
    apply List.filter_eq_self.mpr
    intro n hn
    exact decide_eq_true (hlevel0 n hn)
  by_cases hempty : chunks = [] ∨ embeddings = []
  · have hchunks : chunks = [] := by
      rcases hempty with h | h
      · exact h
      · rw [h] at hlen
        exact List.length_eq_zero.mp (by simpa using hlen.symm)
    have hnodes0 : raptorLevel0Nodes chunks embeddings docId = [] := by
      rw [hchunks]
      rfl
    have hbuild : build_raptor_tree km chunks embeddings docId nClusters = [] := by
      unfold build_raptor_tree
      rw [if_pos hempty]
    rw [hbuild, hnodes0]
    refine ⟨rfl, by rw [hchunks]; rfl, fun _ => rfl, by simp, ?_⟩
    intro node hnode
    cases hnode
  · by_cases hnk : chunks.length ≤ nClusters
    · have hbuild : build_raptor_tree km chunks embeddings docId nClusters
          = raptorLevel0Nodes chunks embeddings docId := by
        unfold build_raptor_tree
        rw [if_neg hempty, if_pos hnk]
      rw [hbuild]
      refine ⟨hfilter0, hcount, fun _ => rfl, ?_, ?_⟩
      · have : (raptorLevel0Nodes chunks embeddings docId).filter
            (fun n => n.raptorLevel = 1) = [] := by
          rw [List.filter_eq_nil_iff]
          intro n hn
          rw [hlevel0 n hn]
          simp
        rw [this]
        simp
      · intro node hnode hlvl
        rw [hlevel0 node hnode] at hlvl
        cases hlvl
    · have hbuild : build_raptor_tree km chunks embeddings docId nClusters
          = raptorLevel0Nodes chunks embeddings docId
            ++ (List.range (min nClusters chunks.length)).filterMap
              (raptorLevel1Node chunks embeddings labels centroids docId) := by
        unfold build_raptor_tree
        rw [if_neg hempty, if_neg hnk, hkm]
      have hlvl1 : ∀ node ∈ (List.range (min nClusters chunks.length)).filterMap
          (raptorLevel1Node chunks embeddings labels centroids docId),
          node.raptorLevel = 1 := by
        intro node hnode
        rw [List.mem_filterMap] at hnode
        obtain ⟨c, -, hsome⟩ := hnode
        exact (raptorLevel1Node_some chunks embeddings labels centroids docId c
          node hsome).2.1
      rw [hbuild]
      refine ⟨?_, hcount, fun hcon => absurd hcon hnk, ?_, ?_⟩
      · rw [List.filter_append, hfilter0]
        have : ((List.range (min nClusters chunks.length)).filterMap
            (raptorLevel1Node chunks embeddings labels centroids docId)).filter
              (fun n => n.raptorLevel = 0) = [] := by
          rw [List.filter_eq_nil_iff]
          intro n hn
          rw [hlvl1 n hn]
          simp
        rw [this, List.append_nil]
      · rw [List.filter_append]
        have h0 : (raptorLevel0Nodes chunks embeddings docId).filter
            (fun n => n.raptorLevel = 1) = [] := by
          rw [List.filter_eq_nil_iff]
          intro n hn
          rw [hlevel0 n hn]
          simp
        rw [h0, List.nil_append]
        calc (((List.range (min nClusters chunks.length)).filterMap
              (raptorLevel1Node chunks embeddings labels centroids docId)).filter
                (fun n => n.raptorLevel = 1)).length
            ≤ ((List.range (min nClusters chunks.length)).filterMap
              (raptorLevel1Node chunks embeddings labels centroids docId)).length :=
              List.length_filter_le _ _
          _ ≤ (List.range (min nClusters chunks.length)).length :=
              List.length_filterMap_le _ _
          _ = min nClusters chunks.length := List.length_range _
      · intro node hnode hlvl
        rw [List.mem_append] at hnode
        rcases hnode with hnode | hnode
        · rw [hlevel0 node hnode] at hlvl
          cases hlvl
        · rw [List.mem_filterMap] at hnode
          obtain ⟨c, hcrange, hsome⟩ := hnode
          obtain ⟨hind, -, hrep, i, hi, htext, hmin⟩ :=
            raptorLevel1Node_some chunks embeddings labels centroids docId c node hsome
          refine ⟨c, List.mem_range.mp hcrange, hind, hrep, i, hi, htext, ?_⟩
          intro j hj
          refine ⟨hmin j hj, ?_⟩
          apply Real.sqrt_le_sqrt
          exact_mod_cast hmin j hj

/-! ## Supporting lemmas: retrieve contract (claim C7) -/

theorem deduplicateAux_nodup :
    ∀ (rs : List RItem) (seen : List String),
      ((deduplicateAux seen rs).map dedupKey).Nodup ∧
      ∀ k ∈ (deduplicateAux seen rs).map dedupKey, k ∉ seen := by
  intro rs
  induction rs with
  | nil =>
    intro seen
    exact ⟨List.nodup_nil, by intro k hk; cases hk⟩
  | cons r rest ih =>
    intro seen
    rw [deduplicateAux]
    by_cases h : dedupKey r ∈ seen
    · rw [if_pos h]
      exact ih seen
    · rw [if_neg h]
      obtain ⟨hnd, hout⟩ := ih (dedupKey r :: seen)
      constructor
      · rw [List.map_cons, List.nodup_cons]
        exact ⟨fun hc => hout _ hc (List.mem_cons_self _ _), hnd⟩
      · intro k hk
        rw [List.map_cons, List.mem_cons] at hk
        rcases hk with rfl | hk
        · exact h
        · exact fun hkseen => hout k hk (List.mem_cons_of_mem _ hkseen)

theorem deduplicate_results_nodup (rs : List RItem) :
    ((deduplicate_results rs).map dedupKey).Nodup :=
  (deduplicateAux_nodup rs []).1

theorem dedup_take_contract (X : List RItem) (topK : Nat) :
    ((deduplicate_results X).take topK).length ≤ topK ∧
    (((deduplicate_results X).take topK).map dedupKey).Nodup := by
  constructor
  · rw [List.length_take]
    exact min_le_left _ _
  · exact (deduplicate_results_nodup X).sublist
      ((List.take_sublist _ _).map dedupKey)

/-- C7: assuming the vector-index collaborator honours its §6 contract —
`search` returns at most `top_k` results with pairwise-distinct dedup
keys (an id, or the first-80-characters-of-text fallback when the id is
absent or empty) — `retrieve` returns, for every query, mode (explicit
`vector`/`graph`/`raptor`/`hybrid`, auto-routed, or unrecognized) and
`top_k`, an ordered list of length at most `top_k` whose entries have
pairwise-distinct dedup keys. -/
theorem retrieve_contract (c : Collab)
    (hlen : ∀ q k d, (c.search q k d).length ≤ k)
    (hnd : ∀ q k d, ((c.search q k d).map dedupKey).Nodup)
    (query : String) (mode : Option String) (topK : Nat) (docId : Option String) :
    (retrieve c query mode topK docId).length ≤ topK ∧
    ((retrieve c query mode topK docId).map dedupKey).Nodup := by
  have hgraph : ∀ q k d, (retrieveGraph c q k d).length ≤ k ∧
      ((retrieveGraph c q k d).map dedupKey).Nodup := by
    intro q k d
    unfold retrieveGraph
    by_cases hin : c.search q (max 10 (k * 2)) d = []
    · rw [if_pos hin]
      exact ⟨Nat.zero_le _, List.nodup_nil⟩
    · rw [if_neg hin]
      exact dedup_take_contract _ _
  have hraptor : ∀ q k d, (retrieveRaptor c q k d).length ≤ k ∧
      ((retrieveRaptor c q k d).map dedupKey).Nodup := by
    intro q k d
    unfold retrieveRaptor
    by_cases hlv : raptorLevels c q k d = []
    · rw [if_pos hlv]
      exact ⟨hlen q k d, hnd q k d⟩
    · rw [if_neg hlv]
      exact dedup_take_contract _ _
  have hhybrid : ∀ q k d, (retrieveHybrid c q k d).length ≤ k ∧
      ((retrieveHybrid c q k d).map dedupKey).Nodup := by
    intro q k d
    unfold retrieveHybrid
    exact dedup_take_contract _ _
  unfold retrieve
  split_ifs
  · exact ⟨hlen query topK docId, hnd query topK docId⟩
  · exact hgraph query topK docId
  · exact hraptor query topK docId
  · exact hhybrid query topK docId
  · exact ⟨hlen query topK docId, hnd query topK docId⟩

/-! ## Supporting lemmas: reciprocal rank fusion (claim C1) -/

theorem lookupKey_isSome_iff {β : Type} :
    ∀ (m : List (String × β)) (a : String),
      (lookupKey m a).isSome = true ↔ a ∈ m.map Prod.fst := by
  intro m
  induction m with
  | nil =>
    intro a
    simp [lookupKey]
  | cons e rest ih =>
    intro a
    obtain ⟨k, v⟩ := e
    rw [lookupKey]
    by_cases h : k = a
    · simp [h]
    · rw [if_neg h, List.map_cons, List.mem_cons]
      rw [ih a]
      exact ⟨Or.inr, fun hc => hc.resolve_left (fun hc' => h hc'.symm)⟩

theorem lookupKey_bumpScore (m : List (String × ℚ)) (k : String) (v : ℚ) (a : String) :
    lookupKey (bumpScore m k v) a
      = if a = k then some ((lookupKey m k).getD 0 + v) else lookupKey m a := by
  induction m with
  | nil =>
    by_cases h : a = k
    · simp [bumpScore, lookupKey, h]
    · simp [bumpScore, lookupKey, h, show ¬ k = a from fun hc => h hc.symm]
  | cons e rest ih =>
    obtain ⟨k', w⟩ := e
    by_cases hk : k' = k
    · by_cases ha : a = k'
      · have hak : a = k := ha.trans hk
        simp [bumpScore, lookupKey, hk, ha.symm, hak]
      · have hak : ¬ a = k := fun hc => ha (hc.trans hk.symm)
        simp [bumpScore, lookupKey, hk, show ¬ k' = a from fun hc => ha hc.symm, hak,
          show ¬ k = a from fun hc => hak hc.symm]
    · by_cases ha : k' = a
      · have hak : ¬ a = k := fun hc => hk (ha.trans hc)
        simp [bumpScore, lookupKey, hk, ha, hak]
      · simp [bumpScore, lookupKey, hk, ha, ih]

theorem keys_bumpScore (m : List (String × ℚ)) (k : String) (v : ℚ) :
    (bumpScore m k v).map Prod.fst =
      if k ∈ m.map Prod.fst then m.map Prod.fst else m.map Prod.fst ++ [k] := by
  induction m with
  | nil => simp [bumpScore]
  | cons e rest ih =>
    obtain ⟨k', w⟩ := e
    rw [bumpScore]
    by_cases hk : k' = k
    · rw [if_pos hk]
      simp [hk]
    · rw [if_neg hk]
      simp only [List.map_cons, List.mem_cons]
      rw [ih]
      by_cases hmem : k ∈ rest.map Prod.fst
      · rw [if_pos hmem, if_pos (Or.inr hmem)]
      · rw [if_neg hmem, if_neg (by rintro (hc | hc); exact hk hc.symm; exact hmem hc)]
        rfl

theorem lookupKey_addSeen (m : List (String × RItem)) (k : String) (it : RItem)
    (a : String) :
    lookupKey (addSeen m k it) a
      = if a = k then some ((lookupKey m k).getD it) else lookupKey m a := by
  induction m with
  | nil =>
    by_cases h : a = k
    · simp [addSeen, lookupKey, h]
    · simp [addSeen, lookupKey, h, show ¬ k = a from fun hc => h hc.symm]
  | cons e rest ih =>
    obtain ⟨k', it'⟩ := e
    by_cases hk : k' = k
    · by_cases ha : a = k'
      · have hak : a = k := ha.trans hk
        simp [addSeen, lookupKey, hk, ha.symm, hak]
      · have hak : ¬ a = k := fun hc => ha (hc.trans hk.symm)
        simp [addSeen, lookupKey, hk, show ¬ k' = a from fun hc => ha hc.symm, hak,
          show ¬ k = a from fun hc => hak hc.symm]
    · by_cases ha : k' = a
      · have hak : ¬ a = k := fun hc => hk (ha.trans hc)
        simp [addSeen, lookupKey, hk, ha, hak]
      · simp [addSeen, lookupKey, hk, ha, ih]

theorem keys_addSeen (m : List (String × RItem)) (k : String) (it : RItem) :
    (addSeen m k it).map Prod.fst =
      if k ∈ m.map Prod.fst then m.map Prod.fst else m.map Prod.fst ++ [k] := by
  induction m with
  | nil => simp [addSeen]
  | cons e rest ih =>
    obtain ⟨k', it'⟩ := e
    rw [addSeen]
    by_cases hk : k' = k
    · rw [if_pos hk]
      simp [hk]
    · rw [if_neg hk]
      simp only [List.map_cons, List.mem_cons]
      rw [ih]
      by_cases hmem : k ∈ rest.map Prod.fst
      · rw [if_pos hmem, if_pos (Or.inr hmem)]
      · rw [if_neg hmem, if_neg (by rintro (hc | hc); exact hk hc.symm; exact hmem hc)]
        rfl

theorem scoreOf_foldl_rrfStep (kk : Nat) :
    ∀ (pairs : List (Nat × RItem)) (st : RRFState) (key : String),
      scoreOf (pairs.foldl (rrfStep kk) st) key
        = scoreOf st key
          + ((pairs.filter (fun p => rrfKey p.2 = key)).map
              (fun p => 1 / ((kk : ℚ) + (p.1 : ℚ)))).sum := by
  intro pairs
  induction pairs with
  | nil =>
    intro st key
    simp
  | cons p rest ih =>
    intro st key
    rw [List.foldl_cons, ih, List.filter_cons]
    have hstep : scoreOf (rrfStep kk st p) key
        = scoreOf st key + (if rrfKey p.2 = key then 1 / ((kk : ℚ) + (p.1 : ℚ)) else 0) := by
      unfold rrfStep scoreOf
      dsimp only
      rw [lookupKey_bumpScore]
      by_cases h : key = rrfKey p.2
      · rw [if_pos h, if_pos h.symm, h]
        simp
      · rw [if_neg h, if_neg (fun hc => h hc.symm)]
        ring
    rw [hstep]
    by_cases h : rrfKey p.2 = key
    · rw [if_pos h, if_pos (decide_eq_true h)]
      simp only [List.map_cons, List.sum_cons]
      ring
    · rw [if_neg h, if_neg (by simpa using h)]
      ring

theorem scoreOf_rrfScanList (kk : Nat) (st : RRFState) (lst : List RItem)
    (key : String) :
    scoreOf (rrfScanList kk st lst) key = scoreOf st key + rrfContrib kk 1 key lst := by
  unfold rrfScanList rrfContrib
  exact scoreOf_foldl_rrfStep kk (lst.enumFrom 1) st key

/-- C1 part (i): the accumulated score of every key is exactly
`Σ over lists of Σ over that key's occurrences of 1/(k + rank)`. -/
theorem scoreOf_rrfStateOf (kk : Nat) (lists : List (List RItem)) (key : String) :
    scoreOf (rrfStateOf kk lists) key = rrfSpecScore kk lists key := by
  have hgen : ∀ (ls : List (List RItem)) (st : RRFState),
      scoreOf (ls.foldl (rrfScanList kk) st) key
        = scoreOf st key + rrfSpecScore kk ls key := by
    intro ls
    induction ls with
    | nil =>
      intro st
      unfold rrfSpecScore
      simp
    | cons l rest ih =>
      intro st
      rw [List.foldl_cons, ih, scoreOf_rrfScanList]
      unfold rrfSpecScore
      simp only [List.map_cons, List.sum_cons]
      ring
  have h0 : scoreOf { scores := [], seen := [] } key = 0 := rfl
  unfold rrfStateOf
  rw [hgen lists { scores := [], seen := [] }, h0, zero_add]

theorem enumFrom_find?_snd (p : RItem → Bool) :
    ∀ (l : List RItem) (r : Nat),
      ((l.enumFrom r).find? (fun q => p q.2)).map Prod.snd = l.find? p := by
  intro l
  induction l with
  | nil => intro r; rfl
  | cons x xs ih =>
    intro r
    by_cases h : p x = true
    · rw [List.enumFrom_cons, List.find?_cons_of_pos _ (by dsimp only; exact h),
        List.find?_cons_of_pos _ h]
      rfl
    · rw [List.enumFrom_cons, List.find?_cons_of_neg _ (by dsimp only; simpa using h),
        List.find?_cons_of_neg _ h]
      exact ih (r + 1)

theorem seen_foldl_rrfStep (kk : Nat) :
    ∀ (pairs : List (Nat × RItem)) (st : RRFState) (a : String),
      lookupKey (pairs.foldl (rrfStep kk) st).seen a
        = (lookupKey st.seen a).or
            ((pairs.find? (fun p => rrfKey p.2 = a)).map Prod.snd) := by
  intro pairs
  induction pairs with
  | nil =>
    intro st a
    simp
  | cons p rest ih =>
    intro st a
    rw [List.foldl_cons, ih]
    have hseen : (rrfStep kk st p).seen = addSeen st.seen (rrfKey p.2) p.2 := rfl
    rw [hseen, lookupKey_addSeen]
    by_cases h : a = rrfKey p.2
    · rw [if_pos h,
        List.find?_cons_of_pos _ (by exact decide_eq_true h.symm)]
      rw [← h]
      cases hlook : lookupKey st.seen a with
      | none => rfl
      | some x => rfl
    · rw [if_neg h,
        List.find?_cons_of_neg _ (by simpa using fun hc => h hc.symm)]

/-- C1 part (ii): the payload stored for a key is the first item bearing
that key in concatenated list order — i.e. the earliest list's copy. -/
theorem seen_rrfStateOf (kk : Nat) (lists : List (List RItem)) (a : String) :
    lookupKey (rrfStateOf kk lists).seen a
      = lists.flatten.find? (fun it => rrfKey it = a) := by
  have hgen : ∀ (ls : List (List RItem)) (st : RRFState),
      lookupKey (ls.foldl (rrfScanList kk) st).seen a
        = (lookupKey st.seen a).or (ls.flatten.find? (fun it => rrfKey it = a)) := by
    intro ls
    induction ls with
    | nil =>
      intro st
      simp
    | cons l rest ih =>
      intro st
      rw [List.foldl_cons, ih]
      have hscan : lookupKey (rrfScanList kk st l).seen a
          = (lookupKey st.seen a).or
              (((l.enumFrom 1).find? (fun p => rrfKey p.2 = a)).map Prod.snd) := by
        unfold rrfScanList
        exact seen_foldl_rrfStep kk (l.enumFrom 1) st a
      rw [hscan, enumFrom_find?_snd (fun it => rrfKey it = a) l 1]
      rw [List.flatten_cons, List.find?_append, Option.or_assoc]
  unfold rrfStateOf
  rw [hgen lists { scores := [], seen := [] }]
  rfl

theorem keys_foldl_rrfStep (kk : Nat) :
    ∀ (pairs : List (Nat × RItem)) (st : RRFState),
      (pairs.foldl (rrfStep kk) st).scores.map Prod.fst
        = (pairs.map (fun p => rrfKey p.2)).foldl
            (fun acc k => if k ∈ acc then acc else acc ++ [k])
            (st.scores.map Prod.fst) := by
  intro pairs
  induction pairs with
  | nil => intro st; rfl
  | cons p rest ih =>
    intro st
    rw [List.foldl_cons, ih, List.map_cons, List.foldl_cons]
    have hkeys : (rrfStep kk st p).scores.map Prod.fst
        = if rrfKey p.2 ∈ st.scores.map Prod.fst then st.scores.map Prod.fst
          else st.scores.map Prod.fst ++ [rrfKey p.2] := keys_bumpScore _ _ _
    rw [hkeys]

/-- C1 part (iv, keys): the score dict's key order is exactly first-seen
order over the concatenated input (Python `dict` insertion order). -/
theorem keys_rrfStateOf (kk : Nat) (lists : List (List RItem)) :
    (rrfStateOf kk lists).scores.map Prod.fst
      = pyDedupStr (lists.flatten.map rrfKey) := by
  have hgen : ∀ (ls : List (List RItem)) (st : RRFState),
      (ls.foldl (rrfScanList kk) st).scores.map Prod.fst
        = (ls.flatten.map rrfKey).foldl
            (fun acc k => if k ∈ acc then acc else acc ++ [k])
            (st.scores.map Prod.fst) := by
    intro ls
    induction ls with
    | nil => intro st; rfl
    | cons l rest ih =>
      intro st
      rw [List.foldl_cons, ih]
      have hscan : (rrfScanList kk st l).scores.map Prod.fst
          = ((l.enumFrom 1).map (fun p => rrfKey p.2)).foldl
              (fun acc k => if k ∈ acc then acc else acc ++ [k])
              (st.scores.map Prod.fst) := keys_foldl_rrfStep kk _ st
      have hmap : (l.enumFrom 1).map (fun p => rrfKey p.2) = l.map rrfKey := by
        have h1 : (l.enumFrom 1).map (fun p => rrfKey p.2)
            = ((l.enumFrom 1).map Prod.snd).map rrfKey := by
          rw [List.map_map]
          rfl
        rw [h1, List.enumFrom_map_snd]
      rw [hscan, hmap, List.flatten_cons, List.map_append, List.foldl_append]
  unfold rrfStateOf pyDedupStr
  rw [hgen lists { scores := [], seen := [] }]
  rfl

theorem foldlDedup_of_disjoint :
    ∀ (l acc : List String), l.Nodup → (∀ x ∈ l, x ∉ acc) →
      l.foldl (fun acc k => if k ∈ acc then acc else acc ++ [k]) acc = acc ++ l := by
  intro l
  induction l with
  | nil =>
    intro acc _ _
    simp
  | cons x xs ih =>
    intro acc hnd hdisj
    rw [List.nodup_cons] at hnd
    rw [List.foldl_cons, if_neg (hdisj x (List.mem_cons_self x xs))]
    rw [ih (acc ++ [x]) hnd.2 ?_]
    · simp
    · intro y hy
      rw [List.mem_append, List.mem_singleton]
      rintro (hc | rfl)
      · exact hdisj y (List.mem_cons_of_mem x hy) hc
      · exact hnd.1 hy

theorem pyDedupStr_eq_self (l : List String) (h : l.Nodup) : pyDedupStr l = l := by
  unfold pyDedupStr
  rw [foldlDedup_of_disjoint l [] h (by intro x _ hc; cases hc)]
  rfl

theorem mem_foldlDedup :
    ∀ (l acc : List String) (x : String),
      x ∈ l.foldl (fun acc k => if k ∈ acc then acc else acc ++ [k]) acc →
      x ∈ acc ∨ x ∈ l := by
  intro l
  induction l with
  | nil =>
    intro acc x hx
    exact Or.inl hx
  | cons y ys ih =>
    intro acc x hx
    rw [List.foldl_cons] at hx
    by_cases hy : y ∈ acc
    · rw [if_pos hy] at hx
      rcases ih acc x hx with h | h
      · exact Or.inl h
      · exact Or.inr (List.mem_cons_of_mem y h)
    · rw [if_neg hy] at hx
      rcases ih (acc ++ [y]) x hx with h | h
      · rw [List.mem_append, List.mem_singleton] at h
        rcases h with h | rfl
        · exact Or.inl h
        · exact Or.inr (List.mem_cons_self x ys)
      · exact Or.inr (List.mem_cons_of_mem y h)

theorem mem_pyDedupStr (l : List String) (x : String) (hx : x ∈ pyDedupStr l) :
    x ∈ l := by
  unfold pyDedupStr at hx
  rcases mem_foldlDedup l [] x hx with h | h
  · cases h
  · exact h

theorem length_filterMap_all_some {α β : Type} (f : α → Option β) :
    ∀ (l : List α), (∀ a ∈ l, (f a).isSome = true) →
      (l.filterMap f).length = l.length := by
  intro l
  induction l with
  | nil => intro _; rfl
  | cons x xs ih =>
    intro h
    have hx := h x (List.mem_cons_self x xs)
    obtain ⟨y, hy⟩ := Option.isSome_iff_exists.mp hx
    rw [List.filterMap_cons, hy, List.length_cons,
      ih (fun a ha => h a (List.mem_cons_of_mem x ha)), List.length_cons]

theorem filterMap_map_section {α β : Type} (f : α → Option β) (g : β → α) :
    ∀ (l : List α), (∀ a ∈ l, ∃ y, f a = some y ∧ g y = a) →
      (l.filterMap f).map g = l := by
  intro l
  induction l with
  | nil => intro _; rfl
  | cons x xs ih =>
    intro h
    obtain ⟨y, hy, hgy⟩ := h x (List.mem_cons_self x xs)
    rw [List.filterMap_cons, hy, List.map_cons, hgy,
      ih (fun a ha => h a (List.mem_cons_of_mem x ha))]

theorem seen_some_of_key_mem (kk : Nat) (lists : List (List RItem)) :
    ∀ key ∈ (rrfStateOf kk lists).scores.map Prod.fst,
      ∃ it, lookupKey (rrfStateOf kk lists).seen key = some it ∧ rrfKey it = key := by
  intro key hkey
  rw [keys_rrfStateOf] at hkey
  have hmem : key ∈ lists.flatten.map rrfKey := mem_pyDedupStr _ key hkey
  rw [List.mem_map] at hmem
  obtain ⟨it0, hit0, rfl⟩ := hmem
  have hfind : (lists.flatten.find? (fun it => rrfKey it = rrfKey it0)).isSome = true := by
    rw [List.find?_isSome]
    exact ⟨it0, hit0, decide_eq_true rfl⟩
  obtain ⟨it, hit⟩ := Option.isSome_iff_exists.mp hfind
  refine ⟨it, ?_, ?_⟩
  · rw [seen_rrfStateOf]
    exact hit
  · have := List.find?_some hit
    exact of_decide_eq_true this

theorem rrfLe_trans (st : RRFState) :
    ∀ (a b c : String), decide (scoreOf st b ≤ scoreOf st a) = true →
      decide (scoreOf st c ≤ scoreOf st b) = true →
      decide (scoreOf st c ≤ scoreOf st a) = true := by
  intro a b c h1 h2
  rw [decide_eq_true_eq] at h1 h2 ⊢
  exact le_trans h2 h1

theorem rrfLe_total (st : RRFState) :
    ∀ (a b : String), (decide (scoreOf st b ≤ scoreOf st a)
      || decide (scoreOf st a ≤ scoreOf st b)) = true := by
  intro a b
  rcases le_total (scoreOf st b) (scoreOf st a) with h | h
  · rw [decide_eq_true h]
    rfl
  · rw [decide_eq_true h]
    simp

theorem rrfContrib_nonneg (kk r : Nat) (key : String) (l : List RItem) :
    0 ≤ rrfContrib kk r key l := by
  unfold rrfContrib
  apply List.sum_nonneg
  intro x hx
  rw [List.mem_map] at hx
  obtain ⟨p, -, rfl⟩ := hx
  positivity

theorem rrfContrib_head (kk r : Nat) (l : List RItem) (x : RItem)
    (hx : l.head? = some x) :
    1 / ((kk : ℚ) + (r : ℚ)) ≤ rrfContrib kk r (rrfKey x) l := by
  cases l with
  | nil => cases hx
  | cons y t =>
    rw [List.head?_cons, Option.some.injEq] at hx
    subst hx
    unfold rrfContrib
    rw [List.enumFrom_cons, List.filter_cons_of_pos (by exact decide_eq_true rfl)]
    rw [List.map_cons, List.sum_cons]
    have htail : 0 ≤ (((t.enumFrom (r + 1)).filter
        (fun p => rrfKey p.2 = rrfKey y)).map
          (fun p => 1 / ((kk : ℚ) + (p.1 : ℚ)))).sum := by
      have := rrfContrib_nonneg kk (r + 1) (rrfKey y) t
      unfold rrfContrib at this
      exact this
    exact le_add_of_nonneg_right htail

theorem rrfContrib_le_count (kk : Nat) (key : String) :
    ∀ (l : List RItem) (r : Nat), 0 < kk + r →
      rrfContrib kk r key l
        ≤ (((l.map rrfKey).count key : ℚ)) * (1 / ((kk : ℚ) + (r : ℚ))) := by
  intro l
  induction l with
  | nil =>
    intro r _
    simp [rrfContrib]
  | cons x t ih =>
    intro r hr
    have hstep : (0 : ℚ) < (kk : ℚ) + (r : ℚ) := by exact_mod_cast hr
    have hstep1 : (0 : ℚ) < (kk : ℚ) + ((r : ℚ) + 1) := by linarith
    have hmono : 1 / ((kk : ℚ) + ((r + 1 : Nat) : ℚ)) ≤ 1 / ((kk : ℚ) + (r : ℚ)) := by
      push_cast
      apply one_div_le_one_div_of_le hstep
      linarith
    have hcount : (((x :: t).map rrfKey).count key : ℚ)
        = ((t.map rrfKey).count key : ℚ)
          + (if rrfKey x = key then (1 : ℚ) else 0) := by
      rw [List.map_cons, List.count_cons]
      by_cases h : rrfKey x = key
      · rw [if_pos h, if_pos (by exact beq_iff_eq.mpr h)]
        push_cast
        ring
      · rw [if_neg h, if_neg (by simpa using h)]
        push_cast
        ring
    have htail := ih (r + 1) (by omega)
    unfold rrfContrib at htail ⊢
    rw [List.enumFrom_cons]
    by_cases h : rrfKey x = key
    · rw [List.filter_cons_of_pos (by exact decide_eq_true h), List.map_cons,
        List.sum_cons, hcount, if_pos h]
      have hcnt_nonneg : (0 : ℚ) ≤ ((t.map rrfKey).count key : ℚ) := by positivity
      calc 1 / ((kk : ℚ) + (r : ℚ)) + (((t.enumFrom (r + 1)).filter
            (fun p => rrfKey p.2 = key)).map (fun p => 1 / ((kk : ℚ) + (p.1 : ℚ)))).sum
          ≤ 1 / ((kk : ℚ) + (r : ℚ))
            + ((t.map rrfKey).count key : ℚ) * (1 / ((kk : ℚ) + ((r + 1 : Nat) : ℚ))) := by
            linarith [htail]
        _ ≤ 1 / ((kk : ℚ) + (r : ℚ))
            + ((t.map rrfKey).count key : ℚ) * (1 / ((kk : ℚ) + (r : ℚ))) := by
            have := mul_le_mul_of_nonneg_left hmono hcnt_nonneg
            linarith
        _ = (((t.map rrfKey).count key : ℚ) + 1) * (1 / ((kk : ℚ) + (r : ℚ))) := by ring
    · rw [List.filter_cons_of_neg (by simpa using h), hcount, if_neg h]
      calc (((t.enumFrom (r + 1)).filter
            (fun p => rrfKey p.2 = key)).map (fun p => 1 / ((kk : ℚ) + (p.1 : ℚ)))).sum
          ≤ ((t.map rrfKey).count key : ℚ) * (1 / ((kk : ℚ) + ((r + 1 : Nat) : ℚ))) :=
            htail
        _ ≤ ((t.map rrfKey).count key : ℚ) * (1 / ((kk : ℚ) + (r : ℚ))) := by
            have hcnt_nonneg : (0 : ℚ) ≤ ((t.map rrfKey).count key : ℚ) := by positivity
            exact mul_le_mul_of_nonneg_left hmono hcnt_nonneg
        _ = (((t.map rrfKey).count key : ℚ) + 0) * (1 / ((kk : ℚ) + (r : ℚ))) := by ring

/-- C1: Reciprocal Rank Fusion.  (i) Each key's score is the sum over
the input lists of `1/(60 + rank)` with 1-based ranks (keys are the id,
or the first 100 characters of the text when the id is absent or empty,
per `rrfKey`); (ii) the payload kept for a key is the first-seen copy —
the earliest list's; (iii) the output is ordered by descending score;
(iv) the score dict's keys are in first-seen insertion order, and (v)
tied keys keep that first-seen order in the output (stability of the
sort); (vi) for two lists with pairwise-distinct keys the fused list has
exactly `L1 + L2` entries; (vii) an item whose key is at rank 1 of both
lists scores strictly higher than any item whose key occurs exactly once
(in particular one present at rank 1 in only one list). -/
theorem rrf_spec :
    (∀ (lists : List (List RItem)) (key : String),
      scoreOf (rrfStateOf 60 lists) key = rrfSpecScore 60 lists key) ∧
    (∀ (lists : List (List RItem)) (key : String),
      lookupKey (rrfStateOf 60 lists).seen key
        = lists.flatten.find? (fun it => rrfKey it = key)) ∧
    (∀ lists : List (List RItem),
      (reciprocal_rank_fusion lists 60).Pairwise (fun x y =>
        scoreOf (rrfStateOf 60 lists) (rrfKey y)
          ≤ scoreOf (rrfStateOf 60 lists) (rrfKey x))) ∧
    (∀ lists : List (List RItem),
      (rrfStateOf 60 lists).scores.map Prod.fst
        = pyDedupStr (lists.flatten.map rrfKey)) ∧
    (∀ (lists : List (List RItem)) (a b : String),
      scoreOf (rrfStateOf 60 lists) a = scoreOf (rrfStateOf 60 lists) b →
      List.Sublist [a, b] ((rrfStateOf 60 lists).scores.map Prod.fst) →
      List.Sublist [a, b] ((reciprocal_rank_fusion lists 60).map rrfKey)) ∧
    (∀ l1 l2 : List RItem, ((l1 ++ l2).map rrfKey).Nodup →
      (reciprocal_rank_fusion [l1, l2] 60).length = l1.length + l2.length) ∧
    (∀ (l1 l2 : List RItem) (x y z : RItem),
      l1.head? = some x → l2.head? = some y → rrfKey x = rrfKey y →
      ((l1 ++ l2).map rrfKey).count (rrfKey z) = 1 →
      rrfSpecScore 60 [l1, l2] (rrfKey z) < rrfSpecScore 60 [l1, l2] (rrfKey x)) := by
  have hkeyof : ∀ (lists : List (List RItem)) (k : String) (it : RItem),
      lookupKey (rrfStateOf 60 lists).seen k = some it → rrfKey it = k := by
    intro lists k it hit
    rw [seen_rrfStateOf] at hit
    have hp := List.find?_some hit
    exact of_decide_eq_true hp
  have houtmap : ∀ lists : List (List RItem),
      (reciprocal_rank_fusion lists 60).map rrfKey = rrfSortedKeys lists 60 := by
    intro lists
    unfold reciprocal_rank_fusion
    apply filterMap_map_section
    intro k hk
    have hkeys : k ∈ (rrfStateOf 60 lists).scores.map Prod.fst := by
      unfold rrfSortedKeys at hk
      exact (List.mergeSort_perm _ _).mem_iff.mp hk
    obtain ⟨it, hit, hkey⟩ := seen_some_of_key_mem 60 lists k hkeys
    exact ⟨it, hit, hkey⟩
  refine ⟨scoreOf_rrfStateOf 60, seen_rrfStateOf 60, ?_, keys_rrfStateOf 60, ?_, ?_, ?_⟩
  · -- (iii) descending score order
    intro lists
    unfold reciprocal_rank_fusion rrfSortedKeys
    rw [List.pairwise_filterMap]
    have hsorted := @List.sorted_mergeSort String
      (fun a b => decide (scoreOf (rrfStateOf 60 lists) b
        ≤ scoreOf (rrfStateOf 60 lists) a))
      (rrfLe_trans (rrfStateOf 60 lists)) (rrfLe_total (rrfStateOf 60 lists))
      ((rrfStateOf 60 lists).scores.map Prod.fst)
    refine hsorted.imp ?_
    intro k1 k2 hle it1 hit1 it2 hit2
    rw [Option.mem_def] at hit1 hit2
    rw [hkeyof lists k1 it1 hit1, hkeyof lists k2 it2 hit2]
    exact of_decide_eq_true hle
  · -- (v) tie-break stability
    intro lists a b hscore hsub
    rw [houtmap lists]
    unfold rrfSortedKeys
    exact List.pair_sublist_mergeSort (rrfLe_trans _) (rrfLe_total _)
      (decide_eq_true (le_of_eq hscore.symm)) hsub
  · -- (vi) disjoint keys: length L1 + L2
    intro l1 l2 hnd
    unfold reciprocal_rank_fusion
    rw [length_filterMap_all_some]
    · have hperm : (rrfSortedKeys [l1, l2] 60).length
          = ((rrfStateOf 60 [l1, l2]).scores.map Prod.fst).length := by
        unfold rrfSortedKeys
        exact (List.mergeSort_perm _ _).length_eq
      rw [hperm, keys_rrfStateOf]
      have hflat : ([l1, l2] : List (List RItem)).flatten = l1 ++ l2 := by simp
      rw [hflat, pyDedupStr_eq_self _ hnd, List.length_map, List.length_append]
    · intro key hkey
      have hkeys : key ∈ (rrfStateOf 60 [l1, l2]).scores.map Prod.fst := by
        unfold rrfSortedKeys at hkey
        exact (List.mergeSort_perm _ _).mem_iff.mp hkey
      obtain ⟨it, hit, -⟩ := seen_some_of_key_mem 60 [l1, l2] key hkeys
      rw [hit]
      rfl
  · -- (vii) rank-1-in-both beats single-occurrence keys
    intro l1 l2 x y z hx hy hxy hcount
    have hspec : ∀ key, rrfSpecScore 60 [l1, l2] key
        = rrfContrib 60 1 key l1 + rrfContrib 60 1 key l2 := by
      intro key
      unfold rrfSpecScore
      simp
    rw [hspec, hspec]
    have hcast : (((60 : Nat) : ℚ) + ((1 : Nat) : ℚ)) = 61 := by push_cast; norm_num
    have hc1 := rrfContrib_le_count 60 (rrfKey z) l1 1 (by omega)
    have hc2 := rrfContrib_le_count 60 (rrfKey z) l2 1 (by omega)
    rw [hcast] at hc1 hc2
    have hsplit : (l1.map rrfKey).count (rrfKey z)
        + (l2.map rrfKey).count (rrfKey z) = 1 := by
      rw [List.map_append, List.count_append] at hcount
      exact hcount
    have hsplitQ : ((l1.map rrfKey).count (rrfKey z) : ℚ)
        + ((l2.map rrfKey).count (rrfKey z) : ℚ) = 1 := by exact_mod_cast hsplit
    have hzle : rrfContrib 60 1 (rrfKey z) l1 + rrfContrib 60 1 (rrfKey z) l2
        ≤ 1 / 61 := by
      calc rrfContrib 60 1 (rrfKey z) l1 + rrfContrib 60 1 (rrfKey z) l2
          ≤ ((l1.map rrfKey).count (rrfKey z) : ℚ) * (1 / 61)
            + ((l2.map rrfKey).count (rrfKey z) : ℚ) * (1 / 61) := by
            linarith
        _ = (((l1.map rrfKey).count (rrfKey z) : ℚ)
            + ((l2.map rrfKey).count (rrfKey z) : ℚ)) * (1 / 61) := by ring
        _ = 1 / 61 := by rw [hsplitQ]; ring
    have hhead1 := rrfContrib_head 60 1 l1 x hx
    have hhead2 := rrfContrib_head 60 1 l2 y hy
    rw [hcast] at hhead1 hhead2
    rw [← hxy] at hhead2
    have h2of61 : (1 : ℚ) / 61 < 1 / 61 + 1 / 61 := by norm_num
    linarith

/-! ## Concrete witnesses -/

/-- A trivial collaborator assembly whose vector index is empty. -/
def trivCollab : Collab where
  search := fun _ _ _ => []
  searchRaptor := fun _ _ _ _ => []
  getByIds := fun _ => []
  getRelatedEntities := fun _ _ _ => []
  getChunkIdsForEntities := fun _ _ _ => []
  extractEntities := fun _ _ => []
  detectLanguage := fun _ => "en"

/-- A two-outcome entity extractor used to instantiate claim C3. -/
def extractW (t : String) : List String :=
  if t = "c1" then ["Paris", "Berlin"] else ["Paris", "Rome"]

theorem extractW_nodup : ∀ t, (extractW t).Nodup := by
  intro t
  unfold extractW
  split_ifs <;> decide

def kmW (_ : List (List ℚ)) (_ : Nat) : List Nat × List (List ℚ) :=
  ([0, 1, 0, 1, 0], [[0, 0], [2, 2]])

def chunksW : List GChunk :=
  [{ text := "t0", chunkIndex := none }, { text := "t1", chunkIndex := none },
   { text := "t2", chunkIndex := none }, { text := "t3", chunkIndex := none },
   { text := "t4", chunkIndex := none }]

def embW : List (List ℚ) := [[0, 0], [2, 3], [0, 1], [2, 2], [5, 5]]

/-- Witness for C1: two one-element lists with distinct ids fuse to a
two-element list, and a key at rank 1 of both lists beats a key
occurring once. -/
theorem rrf_spec_witness :
    ((([({ id := some "a", text := "ta" } : RItem)]
        ++ [({ id := some "b", text := "tb" } : RItem)]).map rrfKey).Nodup ∧
      (reciprocal_rank_fusion
        [[({ id := some "a", text := "ta" } : RItem)],
         [({ id := some "b", text := "tb" } : RItem)]] 60).length = 1 + 1) ∧
    ((([({ id := some "k", text := "t1" } : RItem)]
        ++ [({ id := some "k", text := "t2" } : RItem),
            ({ id := some "c", text := "tz" } : RItem)]).map rrfKey).count
        (rrfKey ({ id := some "c", text := "tz" } : RItem)) = 1 ∧
      rrfSpecScore 60
          [[({ id := some "k", text := "t1" } : RItem)],
           [({ id := some "k", text := "t2" } : RItem),
            ({ id := some "c", text := "tz" } : RItem)]]
          (rrfKey ({ id := some "c", text := "tz" } : RItem))
        < rrfSpecScore 60
            [[({ id := some "k", text := "t1" } : RItem)],
             [({ id := some "k", text := "t2" } : RItem),
              ({ id := some "c", text := "tz" } : RItem)]]
            (rrfKey ({ id := some "k", text := "t1" } : RItem))) :=
  ⟨⟨by decide, rrf_spec.2.2.2.2.2.1 _ _ (by decide)⟩,
   ⟨by decide, rrf_spec.2.2.2.2.2.2 _ _ _ _ _ rfl rfl (by decide) (by decide)⟩⟩

/-- Witness for C3: a two-chunk document where "Paris" and "Berlin"
co-occur in exactly one chunk. -/
theorem cooccurrence_edges_witness :
    (∀ t, (extractW t).Nodup) ∧ "Paris" ≠ "Berlin" ∧
    edgeWeight (build_cooccurrence_edges extractW
        [{ text := "c1", chunkIndex := some 0 }, { text := "c2", chunkIndex := some 1 }]
        (some "d")).1 "Paris" "Berlin"
      = (coChunkCount extractW
          [{ text := "c1", chunkIndex := some 0 }, { text := "c2", chunkIndex := some 1 }]
          "Paris" "Berlin" : ℚ) :=
  ⟨extractW_nodup, by decide,
   (cooccurrence_edges_spec extractW extractW_nodup
     [{ text := "c1", chunkIndex := some 0 }, { text := "c2", chunkIndex := some 1 }]
     (some "d") "Paris" "Berlin" (by decide)).2.2⟩

/-- Witness for C4: the 4-wide, 1-overlap segmentation of "abcdefgh"
matches its closed form. -/
theorem fixed_segmentation_witness :
    1 < 4 ∧
    chunk_fixed { text := "abcdefgh", docStructure := [] } 4 1
      = fixedChunksSpec "abcdefgh".data 4 1 :=
  ⟨by decide,
   (fixed_segmentation_spec { text := "abcdefgh", docStructure := [] } 4 1 (by decide)).1⟩

/-- Witness for C5: five chunks in two clusters; the level-0 node count
is the chunk count. -/
theorem raptor_tree_witness :
    (kmW embW (min 2 chunksW.length) = ([0, 1, 0, 1, 0], [[0, 0], [2, 2]]) ∧
      embW.length = chunksW.length) ∧
    (raptorLevel0Nodes chunksW embW "d").length = chunksW.length :=
  ⟨⟨rfl, rfl⟩,
   (raptor_tree_spec kmW chunksW embW "d" 2 [0, 1, 0, 1, 0] [[0, 0], [2, 2]]
     rfl rfl).2.1⟩

/-- Witness for C6: a non-empty explicit mode overrides routing. -/
theorem mode_routing_witness :
    ("vector" : String) ≠ "" ∧ effectiveMode (some "vector") "x" = "vector" :=
  ⟨by decide, mode_routing_spec.2.2.2.1 "vector" "x" (by decide)⟩

/-- Witness for C7: the empty-store collaborator satisfies the search
contract, and `retrieve` then satisfies its own. -/
theorem retrieve_contract_witness :
    (∀ q k d, (trivCollab.search q k d).length ≤ k) ∧
    (∀ q k d, ((trivCollab.search q k d).map dedupKey).Nodup) ∧
    ((retrieve trivCollab "q" none 5 none).length ≤ 5 ∧
      ((retrieve trivCollab "q" none 5 none).map dedupKey).Nodup) :=
  ⟨fun _ _ _ => by simp [trivCollab],
   fun _ _ _ => by simp [trivCollab],
   retrieve_contract trivCollab (fun _ _ _ => by simp [trivCollab])
     (fun _ _ _ => by simp [trivCollab]) "q" none 5 none⟩

/-- Witness for C8 (amended): a plain fixed-chunked document has only
trim-non-empty chunks. -/
theorem chunk_invariants_witness :
    1 < 4 ∧
    (∀ b ∈ ({ text := "hello world", docStructure := [] } : ParsedDocument).docStructure,
      b.text ≠ "" → pyStrip b.text ≠ "") ∧
    ∀ c ∈ chunk_document { text := "hello world", docStructure := [] } "fixed" 4 1,
      pyStrip c.text ≠ "" :=
  ⟨by decide,
   ⟨(by intro b hb; cases hb),
    (chunk_invariants_amended { text := "hello world", docStructure := [] } 4 1
      (by decide) "fixed" (by intro b hb; cases hb)).1⟩⟩

/-- Witness for C9: with `S = 2, O = 1` the scan of "ab" terminates;
with `S = 1, O = 2` it consumes any fuel without terminating. -/
theorem fixed_chunking_termination_witness :
    (1 < 2 ∧ ∃ res, chunkFixedAux "ab".data 2 1 ("ab".data.length + 1) 0 0 = some res) ∧
    (1 ≤ 2 ∧ "ab".data ≠ [] ∧ chunkFixedAux "ab".data 1 2 5 0 0 = none) :=
  ⟨⟨by decide, fixed_chunking_termination.2.2.1 "ab".data 2 1 (by decide)⟩,
   ⟨by decide, by decide,
    fixed_chunking_termination.2.2.2.2 "ab".data 1 2 (by decide) (by decide) 5 0⟩⟩

/-- Witness for C10: the unrecognized explicit mode "bm25" behaves as a
plain vector search. -/
theorem retrieve_unknown_mode_witness :
    ("bm25" : String) ∉ ["vector", "graph", "raptor", "hybrid"] ∧
    ("bm25" : String) ≠ "" ∧
    retrieve trivCollab "q" (some "bm25") 5 none = trivCollab.search "q" 5 none :=
  ⟨by decide, by decide,
   ((retrieve_unknown_and_empty_mode trivCollab "q" 5 none).1 "bm25"
     (by decide) (by decide)).1⟩

end RagSpec
